import Mathlib

/-!
# FORT-validator: prefixes, the string tokenizer and the log settings

A shallow embedding of `src/address.c`, of the tokenizer of `src/str.c` and of
the log settings of `src/config/log_conf.c`.

* `unsigned int` / `uint32_t` values are natural numbers below `2 ^ 32`,
  `unsigned long` values are natural numbers below `2 ^ 64` (LP64).
* An operation whose behaviour the C standard leaves undefined yields `none`
  (the only such operation in this file is a 32-bit shift by 32 or more).
* The host byte order is a parameter `le` (`true` on a little-endian host).
* A function that writes through a pointer returns the new value of the
  pointee next to its return code.
-/

namespace Fort

/-! ## Constants and machine arithmetic -/

/-- The value of `EINVAL` from `<errno.h>`. -/
def EINVAL : Int := 22

/-- The value of `ERANGE` from `<errno.h>`. -/
def ERANGE : Int := 34

/-- The value of `ULONG_MAX` from `<limits.h>` for a 64-bit `unsigned long`. -/
def ULONG_MAX : Nat := 2 ^ 64 - 1

/-- The expression `a >> n` on a 32-bit unsigned operand: undefined (`none`)
when the shift count is 32 or more. -/
def shr32 (a n : Nat) : Option Nat :=
  if n < 32 then some (a / 2 ^ n) else none

/-- The expression `a - b` on `unsigned int` operands (wraps modulo `2 ^ 32`). -/
def usub32 (a b : Nat) : Nat :=
  (a % 2 ^ 32 + 2 ^ 32 - b % 2 ^ 32) % 2 ^ 32

/-- The conversion of an `int` to `unsigned long` (reduction modulo `2 ^ 64`). -/
def ulong_of_int (i : Int) : Nat :=
  (i % 2 ^ 64).toNat

/-- Reversal of the four bytes of a 32-bit value. -/
def bswap32 (x : Nat) : Nat :=
  (x % 256) * 2 ^ 24 + (x / 2 ^ 8 % 256) * 2 ^ 16 + (x / 2 ^ 16 % 256) * 2 ^ 8
    + (x / 2 ^ 24 % 256)

/-- The C library's `htonl`: host to network byte order. -/
def htonl (le : Bool) (x : Nat) : Nat :=
  if le then bswap32 x else x % 2 ^ 32

/-- The `uint32_t` a host reads from four consecutive bytes of memory. -/
def load32 (le : Bool) (b0 b1 b2 b3 : Nat) : Nat :=
  if le then b0 + b1 * 2 ^ 8 + b2 * 2 ^ 16 + b3 * 2 ^ 24
  else b0 * 2 ^ 24 + b1 * 2 ^ 16 + b2 * 2 ^ 8 + b3

/-! ## Data model -/

/-- The `struct in6_addr`, seen through its `s6_addr32` member: four 32-bit
words as the host reads them. -/
structure in6_addr where
  s6_addr32_0 : Nat
  s6_addr32_1 : Nat
  s6_addr32_2 : Nat
  s6_addr32_3 : Nat
  deriving DecidableEq, Repr

/-- The `struct ipv4_prefix`: `addr.s_addr` (network byte order) and `len`. -/
structure ipv4_prefix where
  s_addr : Nat
  len : Nat
  deriving DecidableEq, Repr

/-- The `struct ipv6_prefix`: `addr` and `len`. -/
structure ipv6_prefix where
  addr : in6_addr
  len : Nat
  deriving DecidableEq, Repr

/-- The result of `memset(&suffix, 0, sizeof(suffix))`. -/
def in6_zero : in6_addr := ⟨0, 0, 0, 0⟩

/-- The `in6_addr` whose memory holds the big-endian words `w0 w1 w2 w3`. -/
def in6_of_words (le : Bool) (w0 w1 w2 w3 : Nat) : in6_addr :=
  ⟨htonl le w0, htonl le w1, htonl le w2, htonl le w3⟩

/-! ## Suffix masks -/

/-- The function `u32_suffix_mask` of `address.c`. -/
def u32_suffix_mask (prefix_len : Nat) : Option Nat :=
  if prefix_len < 32 then shr32 0xFFFFFFFF prefix_len else some 0

/-- The function `be32_suffix_mask` of `address.c`. -/
def be32_suffix_mask (le : Bool) (prefix_len : Nat) : Option Nat :=
  (u32_suffix_mask prefix_len).map (htonl le)

/-- The function `ipv6_suffix_mask` of `address.c`; the result is the value of
`*result` after the call. -/
def ipv6_suffix_mask (le : Bool) (prefix_len : Nat) (result : in6_addr) :
    Option in6_addr :=
  if prefix_len < 32 then
    (be32_suffix_mask le prefix_len).map fun m =>
      { s6_addr32_0 := result.s6_addr32_0 ||| m
        s6_addr32_1 := 0xFFFFFFFF
        s6_addr32_2 := 0xFFFFFFFF
        s6_addr32_3 := 0xFFFFFFFF }
  else if prefix_len < 64 then
    (be32_suffix_mask le (usub32 prefix_len 32)).map fun m =>
      { result with
        s6_addr32_1 := result.s6_addr32_1 ||| m
        s6_addr32_2 := 0xFFFFFFFF
        s6_addr32_3 := 0xFFFFFFFF }
  else if prefix_len < 96 then
    (be32_suffix_mask le (usub32 prefix_len 64)).map fun m =>
      { result with
        s6_addr32_2 := result.s6_addr32_2 ||| m
        s6_addr32_3 := 0xFFFFFFFF }
  else
    (be32_suffix_mask le (usub32 prefix_len 96)).map fun m =>
      { result with s6_addr32_3 := result.s6_addr32_3 ||| m }

/-! ## Validation -/

/-- The function `prefix4_validate` of `address.c`: the return code and the
prefix after the call. -/
def prefix4_validate_run (le : Bool) (p : ipv4_prefix) : Option (Int × ipv4_prefix) :=
  (be32_suffix_mask le p.len).map fun m =>
    if (p.s_addr &&& m) ≠ 0 then (-EINVAL, p) else (0, p)

/-- The return code of `prefix4_validate`. -/
def prefix4_validate (le : Bool) (p : ipv4_prefix) : Option Int :=
  (prefix4_validate_run le p).map Prod.fst

/-- The function `prefix6_validate` of `address.c`: the return code and the
prefix after the call. -/
def prefix6_validate_run (le : Bool) (p : ipv6_prefix) : Option (Int × ipv6_prefix) :=
  (ipv6_suffix_mask le p.len in6_zero).map fun suffix =>
    if (p.addr.s6_addr32_0 &&& suffix.s6_addr32_0) ≠ 0
        ∨ (p.addr.s6_addr32_1 &&& suffix.s6_addr32_1) ≠ 0
        ∨ (p.addr.s6_addr32_2 &&& suffix.s6_addr32_2) ≠ 0
        ∨ (p.addr.s6_addr32_3 &&& suffix.s6_addr32_3) ≠ 0 then
      (-EINVAL, p)
    else (0, p)

/-- The return code of `prefix6_validate`. -/
def prefix6_validate (le : Bool) (p : ipv6_prefix) : Option Int :=
  (prefix6_validate_run le p).map Prod.fst

/-! ## Text to number: the C library's `strtoul`

The text of a C string is the list of its characters before the terminating
NUL; a null pointer is `none`. -/

/-- The C library's `isspace` in the "C" locale: space, `\t`, `\n`, `\v`,
`\f`, `\r`. -/
def isspace (c : Char) : Bool :=
  c.toNat = 32 || (9 ≤ c.toNat && c.toNat ≤ 13)

/-- The C library's `isdigit`. -/
def isdigit (c : Char) : Bool :=
  48 ≤ c.toNat && c.toNat ≤ 57

/-- The digit loop of `strtoul` in base 10 on a 64-bit `unsigned long`: `acc`
is the accumulator, `any` is 0 before the first digit, 1 after a digit and -1
once the value has exceeded `ULONG_MAX`. The loop stops at the first character
that is not a digit. -/
def strtoul_digits : List Char → Nat → Int → Nat × Int
  | [], acc, any => (acc, any)
  | c :: s, acc, any =>
    if isdigit c then
      if any < 0 then strtoul_digits s acc any
      else if acc > ULONG_MAX / 10 ∨ (acc = ULONG_MAX / 10 ∧ c.toNat - 48 > ULONG_MAX % 10) then
        strtoul_digits s ULONG_MAX (-1)
      else strtoul_digits s (acc * 10 + (c.toNat - 48)) 1
    else (acc, any)

/-- The optional sign of `strtoul`: whether a minus sign was read, and the
text after the sign. -/
def strtoul_sign : List Char → Bool × List Char
  | [] => (false, [])
  | c :: r => if c = '-' then (true, r) else if c = '+' then (false, r) else (false, c :: r)

/-- The C library's `strtoul(text, NULL, 10)` (ISO C 7.22.1.4) called with
`errno = 0`: the value returned and the value of `errno` after the call.
Leading white space is skipped, an optional sign is read, then the longest run
of digits is converted and the rest of the text is ignored; a value above
`ULONG_MAX` gives `ULONG_MAX` and `ERANGE`; after a minus sign the value is
negated in `unsigned long`. Without any digit the result is 0, and `errno` is
`EINVAL` on the libraries that report it (`noconv_einval`), as POSIX allows. -/
def strtoul (noconv_einval : Bool) (text : List Char) : Nat × Int :=
  let s := strtoul_sign (text.dropWhile isspace)
  let r := strtoul_digits s.2 0 0
  if r.2 < 0 then (ULONG_MAX, ERANGE)
  else if r.2 = 0 then (0, if noconv_einval then EINVAL else 0)
  else (if s.1 then (2 ^ 64 - r.1) % 2 ^ 64 else r.1, 0)

/-- The diagnostics that `address.c` writes with `warnx` and `warn` when a
decoder fails. -/
inductive diagnostic where
  | null_ipv4
  | invalid_ipv4
  | null_ipv6
  | invalid_ipv6
  | null_length
  | invalid_length
  | length_out_of_bounds
  deriving DecidableEq, Repr

/-- What a decoder leaves behind: its return code, the object behind its
output pointer after the call, and the diagnostic it wrote, if any. -/
structure decoded (α : Type) where
  ret : Int
  out : α
  warned : Option diagnostic
  deriving DecidableEq, Repr

/-- The function `prefix_length_decode` of `address.c`; `dst` is the value of
`*dst` before the call. The local `len` is an `unsigned long`, and `max_value`
is converted to `unsigned long` for the comparison with it. -/
def prefix_length_decode (noconv_einval : Bool) (text : Option (List Char)) (dst : Nat)
    (max_value : Int) : decoded Nat :=
  match text with
  | none => ⟨-EINVAL, dst, some .null_length⟩
  | some t =>
    let r := strtoul noconv_einval t
    let len := r.1
    if r.2 ≠ 0 then ⟨-EINVAL, dst, some .invalid_length⟩
    else if len < 0 ∨ ulong_of_int max_value < len then
      ⟨-EINVAL, dst, some .length_out_of_bounds⟩
    else ⟨0, len % 2 ^ 32, none⟩

/-- The number a text of decimal digits denotes. -/
def decimal_value (text : List Char) : Nat :=
  text.foldl (fun n c => 10 * n + (c.toNat - 48)) 0

/-- The function `prefix_length_decode` with the test `len < 0` left out, as
the specification's design note proposes: only `max_value < len` is tested. -/
def prefix_length_decode_upper_only (noconv_einval : Bool) (text : Option (List Char))
    (dst : Nat) (max_value : Int) : decoded Nat :=
  match text with
  | none => ⟨-EINVAL, dst, some .null_length⟩
  | some t =>
    let r := strtoul noconv_einval t
    let len := r.1
    if r.2 ≠ 0 then ⟨-EINVAL, dst, some .invalid_length⟩
    else if ulong_of_int max_value < len then
      ⟨-EINVAL, dst, some .length_out_of_bounds⟩
    else ⟨0, len % 2 ^ 32, none⟩

/-! ## The string tokenizer (`src/str.c`)

A `size_t` is a natural number below `2 ^ 64`. The elements of `str` are the
integers its `char`s promote to, and so is the separator: the comparison
`str[end] == separator` is the equality of the two integers. A read outside
the buffer (the list `str`) is undefined and yields `none`. -/

/-- The expression `a - b` on `size_t` operands (wraps modulo `2 ^ 64`). -/
def usub64 (a b : Nat) : Nat :=
  (a % 2 ^ 64 + 2 ^ 64 - b % 2 ^ 64) % 2 ^ 64

/-- The `struct string_tokenizer`; the member `end` is `end_` here. -/
structure string_tokenizer where
  str : List Int
  str_len : Nat
  separator : Int
  start : Nat
  end_ : Nat
  deriving DecidableEq, Repr

/-- The function `string_tokenizer_init` of `str.c`: every member is
overwritten, so the result does not depend on the old `*tokenizer`. -/
def string_tokenizer_init (str : List Int) (str_len : Nat) (separator : Int) :
    string_tokenizer :=
  { str := str, str_len := str_len, separator := separator, start := 0, end_ := 0 }

/-- The loop `for (; end < str_len; end++) if (str[end] == separator) break;`
of `string_tokenizer_next`, started at `e`: the value of `end` after the loop.
The first argument bounds the number of iterations (`str_len - e` are enough);
running out of it, like a read outside the buffer, yields `none`. -/
def string_tokenizer_scan (t : string_tokenizer) : Nat → Nat → Option Nat
  | 0, e => if e < t.str_len then none else some e
  | fuel + 1, e =>
    if e < t.str_len then
      match t.str[e]? with
      | none => none
      | some c =>
        if c = t.separator then some e
        else string_tokenizer_scan t fuel ((e + 1) % 2 ^ 64)
    else some e

/-- The function `string_tokenizer_next` of `str.c`: the value returned and
the tokenizer after the call. -/
def string_tokenizer_next (t : string_tokenizer) : Option (Bool × string_tokenizer) :=
  if t.end_ = t.str_len then some (false, t)
  else if t.end_ ≠ 0 then
    let e := (t.end_ + 1) % 2 ^ 64
    if e = t.str_len then some (false, t)
    else
      (string_tokenizer_scan t (t.str_len - e) e).map fun e2 =>
        (true, { t with start := e, end_ := e2 })
  else
    (string_tokenizer_scan t (t.str_len - t.end_) t.end_).map fun e2 =>
      (true, { t with end_ := e2 })

/-- The test `memcmp(a, b, n) == 0`: undefined when either buffer holds fewer
than `n` bytes. -/
def memcmp_eq (a b : List Int) (n : Nat) : Option Bool :=
  if n ≤ a.length ∧ n ≤ b.length then some (decide (a.take n = b.take n)) else none

/-- The function `token_equals` of `str.c`. -/
def token_equals (t1 t2 : string_tokenizer) : Option Bool :=
  let t1len := usub64 t1.end_ t1.start
  let t2len := usub64 t2.end_ t2.start
  if t1len = t2len then memcmp_eq (t1.str.drop t1.start) (t2.str.drop t2.start) t1len
  else some false

/-- The current token `str[start..end)` of a tokenizer. -/
def token (t : string_tokenizer) : List Int :=
  (t.str.drop t.start).take (t.end_ - t.start)

/-- The invariant `start <= end <= str_len`. -/
def tokenizer_inv (t : string_tokenizer) : Prop :=
  t.start ≤ t.end_ ∧ t.end_ ≤ t.str_len

instance tokenizer_inv_decidable (t : string_tokenizer) : Decidable (tokenizer_inv t) :=
  inferInstanceAs (Decidable (t.start ≤ t.end_ ∧ t.end_ ≤ t.str_len))

/-- The tokenizer after `n` successive calls to `string_tokenizer_next`. -/
def string_tokenizer_after : Nat → string_tokenizer → Option string_tokenizer
  | 0, t => some t
  | n + 1, t => (string_tokenizer_next t).bind fun r => string_tokenizer_after n r.2

/-- The value the `n`-th successive call to `string_tokenizer_next` returns
(`n` counted from 1). -/
def string_tokenizer_nth (n : Nat) (t : string_tokenizer) : Option Bool :=
  (string_tokenizer_after (n - 1) t).bind fun t2 => (string_tokenizer_next t2).map Prod.fst

/-- The tokens that successive calls to `string_tokenizer_next` report, up to
the first call that returns false; `none` when none of the first `fuel` calls
returns false. -/
def string_tokenizer_tokens : Nat → string_tokenizer → Option (List (List Int))
  | 0, _ => none
  | fuel + 1, t =>
    match string_tokenizer_next t with
    | none => none
    | some (false, _) => some []
    | some (true, t2) => (string_tokenizer_tokens fuel t2).map fun ts => token t2 :: ts

/-- A list of pieces without its last piece when that piece is empty. -/
def drop_final_empty (pieces : List (List Int)) : List (List Int) :=
  if pieces.getLast? = some [] then pieces.dropLast else pieces

/-- The pieces of a string split at every occurrence of the separator, a final
empty piece omitted. -/
def split_pieces (separator : Int) (str : List Int) : List (List Int) :=
  drop_final_empty (str.splitOn separator)

/-- The integer that a `char` holding the byte `b` promotes to: on a host whose
plain `char` is signed, a byte from 128 on is negative. -/
def char_of_byte (char_signed : Bool) (b : Nat) : Int :=
  if char_signed = true ∧ 128 ≤ b then (b : Int) - 256 else (b : Int)

/-- The tokenizer that `string_tokenizer_init` leaves for a buffer given by its
bytes and an `unsigned char` separator, which promotes to its own value. -/
def string_tokenizer_init_bytes (char_signed : Bool) (bytes : List Nat) (separator : Nat) :
    string_tokenizer :=
  string_tokenizer_init (bytes.map (char_of_byte char_signed)) bytes.length (separator : Int)

/-- The pieces of a string of bytes split at every occurrence of the separator
byte, a final empty piece omitted. -/
def split_bytes (separator : Nat) (bytes : List Nat) : List (List Nat) :=
  if (bytes.splitOn separator).getLast? = some [] then (bytes.splitOn separator).dropLast
  else bytes.splitOn separator

/-! ## The log settings (`src/config/log_conf.c`)

A setting is kept as the integer stored behind the `void *` of the option
table. `print_log_level` and `print_log_output` are modelled by the text they
hand to `pr_info` as the value of the field. -/

/-- The value of `LOG_ERR` from `<syslog.h>`. -/
def LOG_ERR : Nat := 3

/-- The value of `LOG_WARNING` from `<syslog.h>`. -/
def LOG_WARNING : Nat := 4

/-- The value of `LOG_INFO` from `<syslog.h>`. -/
def LOG_INFO : Nat := 6

/-- The value of `LOG_DEBUG` from `<syslog.h>`. -/
def LOG_DEBUG : Nat := 7

/-- Modelled from the spec: the `enum log_output` is declared in a header that
is not among the sources; the log output is one of "two enumerated log
settings", and `SYSLOG` is its first enumerator. -/
def SYSLOG : Nat := 0

/-- Modelled from the spec: the second enumerator of `enum log_output` (see
`SYSLOG`). -/
def CONSOLE : Nat := 1

/-- The function `print_log_level` of `log_conf.c`: the text printed for the
value. -/
def print_log_level (value : Nat) : String :=
  if value = LOG_ERR then "error"
  else if value = LOG_WARNING then "warning"
  else if value = LOG_INFO then "info"
  else if value = LOG_DEBUG then "debug"
  else "<unknown>"

/-- The function `print_log_output` of `log_conf.c`: the text printed for the
value. -/
def print_log_output (value : Nat) : String :=
  if value = SYSLOG then "syslog"
  else if value = CONSOLE then "console"
  else "<unknown>"

/-- The function `parse_argv_log_level` of `log_conf.c`: the return code and
the value behind `result` after the call. The helper `pr_err` is not among the
sources: `pr_err_code` is the value it returns. -/
def parse_argv_log_level (pr_err_code : Int) (str : String) (result : Nat) : Int × Nat :=
  if str = "error" then (0, LOG_ERR)
  else if str = "warning" then (0, LOG_WARNING)
  else if str = "info" then (0, LOG_INFO)
  else if str = "debug" then (0, LOG_DEBUG)
  else (pr_err_code, result)

/-- The function `parse_argv_log_output` of `log_conf.c`: the return code and
the value behind `result` after the call. -/
def parse_argv_log_output (pr_err_code : Int) (str : String) (result : Nat) : Int × Nat :=
  if str = "syslog" then (0, SYSLOG)
  else if str = "console" then (0, CONSOLE)
  else (pr_err_code, result)

/-! ## The masks as the specification words them -/

/-- The specification's IPv4 mask:
`suffix_mask = (L < 32) ? byteswap_to_network_order(0xFFFFFFFF >> L) : 0`. -/
def spec_suffix_mask (le : Bool) (L : Nat) : Nat :=
  if L < 32 then htonl le (0xFFFFFFFF / 2 ^ L) else 0

/-- The specification's per-word IPv6 masks, by the word the length falls in
(boundaries at 32, 64 and 96). -/
def spec_ipv6_masks (le : Bool) (L : Nat) : in6_addr :=
  if L < 32 then ⟨spec_suffix_mask le L, 0xFFFFFFFF, 0xFFFFFFFF, 0xFFFFFFFF⟩
  else if L < 64 then ⟨0, spec_suffix_mask le (L - 32), 0xFFFFFFFF, 0xFFFFFFFF⟩
  else if L < 96 then ⟨0, 0, spec_suffix_mask le (L - 64), 0xFFFFFFFF⟩
  else ⟨0, 0, 0, spec_suffix_mask le (L - 96)⟩

/-- The 128-bit integer whose big-endian 32-bit words are `w0 w1 w2 w3`. -/
def value128 (w0 w1 w2 w3 : Nat) : Nat :=
  w0 * 2 ^ 96 + w1 * 2 ^ 64 + w2 * 2 ^ 32 + w3

/-- The 32-bit integer whose big-endian octets are `b0 b1 b2 b3`. -/
def value32 (b0 b1 b2 b3 : Nat) : Nat :=
  b0 * 2 ^ 24 + b1 * 2 ^ 16 + b2 * 2 ^ 8 + b3

/-! ## Bit-level lemmas -/

theorem shr_ones (n : Nat) (h : n < 32) : 0xFFFFFFFF / 2 ^ n = 2 ^ (32 - n) - 1 := by
  interval_cases n <;> rfl

theorem u32_suffix_mask_eq (n : Nat) :
    u32_suffix_mask n = some (if n < 32 then 2 ^ (32 - n) - 1 else 0) := by
  unfold u32_suffix_mask shr32
  by_cases h : n < 32
  · simp [h, shr_ones n h]
  · simp [h]

theorem and_concat (k a b lo lo2 : Nat) (h1 : lo < 2 ^ k) (h2 : lo2 < 2 ^ k) :
    (2 ^ k * a + lo) &&& (2 ^ k * b + lo2) = 2 ^ k * (a &&& b) + (lo &&& lo2) := by
  apply Nat.eq_of_testBit_eq
  intro i
  have h3 : lo &&& lo2 < 2 ^ k := Nat.and_lt_two_pow lo h2
  rw [Nat.testBit_and, Nat.testBit_mul_pow_two_add a h1, Nat.testBit_mul_pow_two_add b h2,
    Nat.testBit_mul_pow_two_add (a &&& b) h3]
  by_cases hi : i < k <;> simp [hi]

theorem and_div_pow (a b k : Nat) : (a &&& b) / 2 ^ k = a / 2 ^ k &&& b / 2 ^ k := by
  rw [← Nat.shiftRight_eq_div_pow, ← Nat.shiftRight_eq_div_pow, ← Nat.shiftRight_eq_div_pow]
  apply Nat.eq_of_testBit_eq
  intro i
  simp only [Nat.testBit_and, Nat.testBit_shiftRight]

theorem and_mod_pow (a b k : Nat) : (a &&& b) % 2 ^ k = a % 2 ^ k &&& b % 2 ^ k := by
  apply Nat.eq_of_testBit_eq
  intro i
  simp only [Nat.testBit_and, Nat.testBit_mod_two_pow]
  by_cases hi : i < k <;> simp [hi]

theorem bswap32_lt (x : Nat) : bswap32 x < 2 ^ 32 := by
  unfold bswap32
  omega

theorem bswap32_bytes (b0 b1 b2 b3 : Nat) (h0 : b0 < 256) (h1 : b1 < 256) (h2 : b2 < 256)
    (h3 : b3 < 256) :
    bswap32 (b0 * 2 ^ 24 + b1 * 2 ^ 16 + b2 * 2 ^ 8 + b3)
      = b0 + b1 * 2 ^ 8 + b2 * 2 ^ 16 + b3 * 2 ^ 24 := by
  unfold bswap32
  omega

theorem bswap32_eq_zero (x : Nat) (hx : x < 2 ^ 32) : bswap32 x = 0 ↔ x = 0 := by
  unfold bswap32
  constructor
  · intro h
    have h0 : x % 256 = 0 := by omega
    have h1 : x / 2 ^ 8 % 256 = 0 := by omega
    have h2 : x / 2 ^ 16 % 256 = 0 := by omega
    have h3 : x / 2 ^ 24 % 256 = 0 := by omega
    clear h
    omega
  · rintro rfl
    rfl

theorem and_bytes (a3 a2 a1 a0 b3 b2 b1 b0 : Nat) (ha2 : a2 < 256) (ha1 : a1 < 256)
    (ha0 : a0 < 256) (hb2 : b2 < 256) (hb1 : b1 < 256) (hb0 : b0 < 256) :
    (2 ^ 8 * (2 ^ 8 * (2 ^ 8 * a3 + a2) + a1) + a0) &&&
        (2 ^ 8 * (2 ^ 8 * (2 ^ 8 * b3 + b2) + b1) + b0)
      = 2 ^ 8 * (2 ^ 8 * (2 ^ 8 * (a3 &&& b3) + (a2 &&& b2)) + (a1 &&& b1)) + (a0 &&& b0) := by
  rw [and_concat 8 _ _ a0 b0 ha0 hb0, and_concat 8 _ _ a1 b1 ha1 hb1,
    and_concat 8 _ _ a2 b2 ha2 hb2]

theorem bswap32_and (x y : Nat) : bswap32 (x &&& y) = bswap32 x &&& bswap32 y := by
  have hm : ∀ z, z % 256 = z % 2 ^ 8 := fun z => rfl
  have key := and_bytes (x % 256) (x / 2 ^ 8 % 256) (x / 2 ^ 16 % 256) (x / 2 ^ 24 % 256)
    (y % 256) (y / 2 ^ 8 % 256) (y / 2 ^ 16 % 256) (y / 2 ^ 24 % 256)
    (Nat.mod_lt _ (by decide)) (Nat.mod_lt _ (by decide)) (Nat.mod_lt _ (by decide))
    (Nat.mod_lt _ (by decide)) (Nat.mod_lt _ (by decide)) (Nat.mod_lt _ (by decide))
  have e1 : (x &&& y) % 256 = x % 256 &&& y % 256 := by
    rw [hm, hm, hm]; exact and_mod_pow x y 8
  have e2 : (x &&& y) / 2 ^ 8 % 256 = x / 2 ^ 8 % 256 &&& y / 2 ^ 8 % 256 := by
    rw [hm, hm, hm, and_div_pow, and_mod_pow]
  have e3 : (x &&& y) / 2 ^ 16 % 256 = x / 2 ^ 16 % 256 &&& y / 2 ^ 16 % 256 := by
    rw [hm, hm, hm, and_div_pow, and_mod_pow]
  have e4 : (x &&& y) / 2 ^ 24 % 256 = x / 2 ^ 24 % 256 &&& y / 2 ^ 24 % 256 := by
    rw [hm, hm, hm, and_div_pow, and_mod_pow]
  have r : ∀ z, bswap32 z
      = 2 ^ 8 * (2 ^ 8 * (2 ^ 8 * (z % 256) + z / 2 ^ 8 % 256) + z / 2 ^ 16 % 256)
        + z / 2 ^ 24 % 256 := by
    intro z
    unfold bswap32
    omega
  rw [r x, r y, r (x &&& y), key, e1, e2, e3, e4]

theorem htonl_lt (le : Bool) (x : Nat) : htonl le x < 2 ^ 32 := by
  unfold htonl
  cases le
  · exact Nat.mod_lt _ (by decide)
  · exact bswap32_lt x

theorem htonl_zero (le : Bool) : htonl le 0 = 0 := by
  cases le <;> rfl

theorem htonl_and (le : Bool) (x y : Nat) :
    htonl le x &&& htonl le y = htonl le (x &&& y) := by
  cases le
  · simp only [htonl, Bool.false_eq_true, if_false]
    exact (and_mod_pow x y 32).symm
  · simp only [htonl, if_true]
    exact (bswap32_and x y).symm

theorem htonl_eq_zero (le : Bool) (x : Nat) (hx : x < 2 ^ 32) : htonl le x = 0 ↔ x = 0 := by
  cases le
  · simp only [htonl, Bool.false_eq_true, if_false]
    omega
  · simp only [htonl, if_true]
    exact bswap32_eq_zero x hx

theorem load32_eq_htonl (le : Bool) (b0 b1 b2 b3 : Nat) (h0 : b0 < 256) (h1 : b1 < 256)
    (h2 : b2 < 256) (h3 : b3 < 256) :
    load32 le b0 b1 b2 b3 = htonl le (value32 b0 b1 b2 b3) := by
  cases le
  · simp only [htonl, load32, value32, Bool.false_eq_true, if_false]
    omega
  · simp only [htonl, load32, value32, if_true]
    exact (bswap32_bytes b0 b1 b2 b3 h0 h1 h2 h3).symm

theorem u32_suffix_mask_pow (n : Nat) : u32_suffix_mask n = some (2 ^ (32 - n) - 1) := by
  rw [u32_suffix_mask_eq]
  by_cases h : n < 32
  · simp [h]
  · have : 32 - n = 0 := by omega
    simp [h, this]

theorem be32_suffix_mask_pow (le : Bool) (n : Nat) :
    be32_suffix_mask le n = some (htonl le (2 ^ (32 - n) - 1)) := by
  simp [be32_suffix_mask, u32_suffix_mask_pow]

theorem be32_suffix_mask_spec (le : Bool) (n : Nat) :
    be32_suffix_mask le n = some (spec_suffix_mask le n) := by
  unfold be32_suffix_mask spec_suffix_mask u32_suffix_mask shr32
  by_cases h : n < 32
  · simp [h]
  · simp [h, htonl_zero]

/-- A word in network byte order has no bit in common with the mask of `n`
exactly when the low `32 - n` bits of its value are zero. -/
theorem word_and_mask (le : Bool) (w n : Nat) (hw : w < 2 ^ 32) :
    htonl le w &&& htonl le (2 ^ (32 - n) - 1) = 0 ↔ w % 2 ^ (32 - n) = 0 := by
  rw [htonl_and, Nat.and_pow_two_sub_one_eq_mod]
  apply htonl_eq_zero
  exact lt_of_le_of_lt (Nat.mod_le _ _) hw

theorem word_and_ones (le : Bool) (w : Nat) (hw : w < 2 ^ 32) :
    htonl le w &&& 0xFFFFFFFF = 0 ↔ w = 0 := by
  have h : (0xFFFFFFFF : Nat) = 2 ^ 32 - 1 := by decide
  rw [h, Nat.and_pow_two_sub_one_eq_mod, Nat.mod_eq_of_lt (htonl_lt le w)]
  exact htonl_eq_zero le w hw

theorem usub32_of_le (a b : Nat) (ha : a < 2 ^ 32) (hb : b ≤ a) : usub32 a b = a - b := by
  unfold usub32
  omega

theorem mod_pow_of_le (a b k : Nat) (hk : k ≤ 32) : (a * 2 ^ 32 + b) % 2 ^ k = b % 2 ^ k := by
  have h : 2 ^ 32 = 2 ^ k * 2 ^ (32 - k) := by
    rw [← pow_add]
    congr 1
    omega
  rw [h, Nat.add_comm, ← Nat.mul_assoc, Nat.mul_comm a, Nat.mul_assoc, Nat.add_mul_mod_self_left]

/-- The low `c + k` bits of a number are zero exactly when its low `c` bits
are zero and so are the low `k` bits of the 32-bit word above them. -/
theorem low_bits_zero (H w R c k : Nat) (hR : R < 2 ^ c) (hk : k ≤ 32) :
    (2 ^ c * (H * 2 ^ 32 + w) + R) % 2 ^ (c + k) = 0 ↔ w % 2 ^ k = 0 ∧ R = 0 := by
  have hc : 0 < 2 ^ c := Nat.two_pow_pos c
  rw [pow_add, Nat.mod_mul, Nat.mul_add_mod, Nat.mod_eq_of_lt hR, Nat.mul_add_div hc,
    Nat.div_eq_of_lt hR, Nat.add_zero, mod_pow_of_le H w k hk]
  constructor
  · intro h
    have h1 : R = 0 := by omega
    have h2 : 2 ^ c * (w % 2 ^ k) = 0 := by omega
    rcases Nat.mul_eq_zero.mp h2 with h3 | h3
    · omega
    · exact ⟨h3, h1⟩
  · rintro ⟨h1, h2⟩
    rw [h1, h2]
    simp

/-- The return code of `prefix6_validate` in terms of the four word tests, for
a mask that `ipv6_suffix_mask` is known to produce. -/
theorem prefix6_validate_of_mask (le : Bool) (p : ipv6_prefix) (m : in6_addr)
    (hm : ipv6_suffix_mask le p.len in6_zero = some m) :
    (prefix6_validate le p = some 0 ↔
        p.addr.s6_addr32_0 &&& m.s6_addr32_0 = 0 ∧ p.addr.s6_addr32_1 &&& m.s6_addr32_1 = 0
          ∧ p.addr.s6_addr32_2 &&& m.s6_addr32_2 = 0 ∧ p.addr.s6_addr32_3 &&& m.s6_addr32_3 = 0)
      ∧ (prefix6_validate le p = some 0 ∨ prefix6_validate le p = some (-EINVAL)) := by
  unfold prefix6_validate prefix6_validate_run
  rw [hm]
  simp only [Option.map_some', ne_eq]
  split_ifs with h
  · refine ⟨?_, Or.inr rfl⟩
    simp only [Option.some.injEq, EINVAL]
    constructor
    · intro h2
      exact absurd h2 (by decide)
    · rintro ⟨a, b, c, d⟩
      rcases h with h | h | h | h
      · exact absurd a h
      · exact absurd b h
      · exact absurd c h
      · exact absurd d h
  · refine ⟨?_, Or.inl rfl⟩
    simp only [true_iff]
    simp only [not_or, not_not] at h
    exact h

/-- The value of `*result` after `ipv6_suffix_mask` on a zeroed `in6_addr`,
with each partial mask written as a power of two minus one. -/
theorem ipv6_suffix_mask_pow (le : Bool) (L : Nat) (hL : L < 2 ^ 32) :
    ipv6_suffix_mask le L in6_zero = some
      (if L < 32 then ⟨htonl le (2 ^ (32 - L) - 1), 0xFFFFFFFF, 0xFFFFFFFF, 0xFFFFFFFF⟩
       else if L < 64 then ⟨0, htonl le (2 ^ (32 - (L - 32)) - 1), 0xFFFFFFFF, 0xFFFFFFFF⟩
       else if L < 96 then ⟨0, 0, htonl le (2 ^ (32 - (L - 64)) - 1), 0xFFFFFFFF⟩
       else ⟨0, 0, 0, htonl le (2 ^ (32 - (L - 96)) - 1)⟩) := by
  unfold ipv6_suffix_mask in6_zero
  by_cases h1 : L < 32
  · simp [h1, be32_suffix_mask_pow]
  · by_cases h2 : L < 64
    · simp [h1, h2, be32_suffix_mask_pow, usub32_of_le L 32 hL (by omega)]
    · by_cases h3 : L < 96
      · simp [h1, h2, h3, be32_suffix_mask_pow, usub32_of_le L 64 hL (by omega)]
      · simp [h1, h2, h3, be32_suffix_mask_pow, usub32_of_le L 96 hL (by omega)]

/-! ## Validation theorems -/

/-- C1: for an IPv6 address held as four big-endian 32-bit words and a length
`L ≤ 128`, `prefix6_validate` returns 0 exactly when the `128 - L` least
significant bits of the 128-bit value are zero, and `-EINVAL` otherwise. -/
theorem prefix6_validate_iff (le : Bool) (w0 w1 w2 w3 L : Nat) (h0 : w0 < 2 ^ 32)
    (h1 : w1 < 2 ^ 32) (h2 : w2 < 2 ^ 32) (h3 : w3 < 2 ^ 32) (hL : L ≤ 128) :
    (prefix6_validate le ⟨in6_of_words le w0 w1 w2 w3, L⟩ = some 0
        ↔ value128 w0 w1 w2 w3 % 2 ^ (128 - L) = 0)
      ∧ (value128 w0 w1 w2 w3 % 2 ^ (128 - L) ≠ 0
        → prefix6_validate le ⟨in6_of_words le w0 w1 w2 w3, L⟩ = some (-EINVAL)) := by
  have hL32 : L < 2 ^ 32 := lt_of_le_of_lt hL (by decide)
  have key := prefix6_validate_of_mask le ⟨in6_of_words le w0 w1 w2 w3, L⟩ _
    (ipv6_suffix_mask_pow le L hL32)
  have hz : ∀ x : Nat, x &&& 0 = 0 := fun x => Nat.and_zero x
  have iff : prefix6_validate le ⟨in6_of_words le w0 w1 w2 w3, L⟩ = some 0
      ↔ value128 w0 w1 w2 w3 % 2 ^ (128 - L) = 0 := by
    rw [key.1]
    simp only [in6_of_words, value128]
    by_cases c1 : L < 32
    · simp only [c1, if_true, word_and_mask le w0 L h0, word_and_ones le w1 h1,
        word_and_ones le w2 h2, word_and_ones le w3 h3]
      have e : 128 - L = 96 + (32 - L) := by omega
      have v : w0 * 2 ^ 96 + w1 * 2 ^ 64 + w2 * 2 ^ 32 + w3
          = 2 ^ 96 * (0 * 2 ^ 32 + w0) + (w1 * 2 ^ 64 + w2 * 2 ^ 32 + w3) := by omega
      rw [e, v, low_bits_zero 0 w0 _ 96 (32 - L) (by omega) (by omega)]
      omega
    · by_cases c2 : L < 64
      · simp only [c1, c2, if_true, if_false, hz, word_and_mask le w1 (L - 32) h1,
          word_and_ones le w2 h2, word_and_ones le w3 h3, true_and]
        have e : 128 - L = 64 + (32 - (L - 32)) := by omega
        have v : w0 * 2 ^ 96 + w1 * 2 ^ 64 + w2 * 2 ^ 32 + w3
            = 2 ^ 64 * (w0 * 2 ^ 32 + w1) + (w2 * 2 ^ 32 + w3) := by omega
        rw [e, v, low_bits_zero w0 w1 _ 64 (32 - (L - 32)) (by omega) (by omega)]
        omega
      · by_cases c3 : L < 96
        · simp only [c1, c2, c3, if_true, if_false, hz, word_and_mask le w2 (L - 64) h2,
            word_and_ones le w3 h3, true_and]
          have e : 128 - L = 32 + (32 - (L - 64)) := by omega
          have v : w0 * 2 ^ 96 + w1 * 2 ^ 64 + w2 * 2 ^ 32 + w3
              = 2 ^ 32 * ((w0 * 2 ^ 32 + w1) * 2 ^ 32 + w2) + w3 := by omega
          rw [e, v, low_bits_zero (w0 * 2 ^ 32 + w1) w2 _ 32 (32 - (L - 64)) (by omega)
            (by omega)]
        · simp only [c1, c2, c3, if_false, hz, word_and_mask le w3 (L - 96) h3, true_and]
          have e : 128 - L = 0 + (32 - (L - 96)) := by omega
          have v : w0 * 2 ^ 96 + w1 * 2 ^ 64 + w2 * 2 ^ 32 + w3
              = 2 ^ 0 * (((w0 * 2 ^ 32 + w1) * 2 ^ 32 + w2) * 2 ^ 32 + w3) + 0 := by omega
          rw [e, v, low_bits_zero ((w0 * 2 ^ 32 + w1) * 2 ^ 32 + w2) w3 0 0 (32 - (L - 96))
            (by decide) (by omega)]
          simp
  refine ⟨iff, fun hne => ?_⟩
  rcases key.2 with h | h
  · exact absurd (iff.mp h) hne
  · exact h

/-- C1, on the specification's examples: `2001:db8::/32` is accepted and
`2001:db8::1/32` is rejected (little-endian host). -/
theorem prefix6_validate_iff_witness :
    prefix6_validate true ⟨in6_of_words true 0x20010db8 0 0 0, 32⟩ = some 0
      ∧ prefix6_validate true ⟨in6_of_words true 0x20010db8 0 0 1, 32⟩ = some (-EINVAL) :=
  ⟨(prefix6_validate_iff true 0x20010db8 0 0 0 32 (by decide) (by decide) (by decide)
      (by decide) (by decide)).1.mpr (by decide),
   (prefix6_validate_iff true 0x20010db8 0 0 1 32 (by decide) (by decide) (by decide)
      (by decide) (by decide)).2 (by decide)⟩

/-- C2: for an IPv4 address with octets `b0.b1.b2.b3` stored in network byte
order and a length `L ≤ 32`, `prefix4_validate` returns 0 exactly when the
`32 - L` least significant bits of `b0*2^24 + b1*2^16 + b2*2^8 + b3` are zero,
and `-EINVAL` otherwise. -/
theorem prefix4_validate_iff (le : Bool) (b0 b1 b2 b3 L : Nat) (h0 : b0 < 256)
    (h1 : b1 < 256) (h2 : b2 < 256) (h3 : b3 < 256) (_hL : L ≤ 32) :
    (prefix4_validate le ⟨load32 le b0 b1 b2 b3, L⟩ = some 0
        ↔ (b0 * 2 ^ 24 + b1 * 2 ^ 16 + b2 * 2 ^ 8 + b3) % 2 ^ (32 - L) = 0)
      ∧ ((b0 * 2 ^ 24 + b1 * 2 ^ 16 + b2 * 2 ^ 8 + b3) % 2 ^ (32 - L) ≠ 0
        → prefix4_validate le ⟨load32 le b0 b1 b2 b3, L⟩ = some (-EINVAL)) := by
  have hv : value32 b0 b1 b2 b3 < 2 ^ 32 := by
    unfold value32
    omega
  have hw := word_and_mask le (value32 b0 b1 b2 b3) L hv
  have hrun : prefix4_validate le ⟨load32 le b0 b1 b2 b3, L⟩
      = some (if value32 b0 b1 b2 b3 % 2 ^ (32 - L) = 0 then 0 else -EINVAL) := by
    unfold prefix4_validate prefix4_validate_run
    simp only [be32_suffix_mask_pow, Option.map_some', load32_eq_htonl le b0 b1 b2 b3 h0 h1 h2 h3,
      ne_eq, hw]
    split_ifs <;> rfl
  rw [hrun]
  change (_ ↔ value32 b0 b1 b2 b3 % 2 ^ (32 - L) = 0)
    ∧ (value32 b0 b1 b2 b3 % 2 ^ (32 - L) ≠ 0 → _)
  by_cases c : value32 b0 b1 b2 b3 % 2 ^ (32 - L) = 0
  · simp [c]
  · simp [c, EINVAL]

/-- C2, on the specification's examples: `192.0.2.0/24` is accepted and
`192.0.2.1/24` is rejected (little-endian host). -/
theorem prefix4_validate_iff_witness :
    prefix4_validate true ⟨load32 true 192 0 2 0, 24⟩ = some 0
      ∧ prefix4_validate true ⟨load32 true 192 0 2 1, 24⟩ = some (-EINVAL) :=
  ⟨(prefix4_validate_iff true 192 0 2 0 24 (by decide) (by decide) (by decide) (by decide)
      (by decide)).1.mpr (by decide),
   (prefix4_validate_iff true 192 0 2 1 24 (by decide) (by decide) (by decide) (by decide)
      (by decide)).2 (by decide)⟩

/-- C3: with the length equal to the address width, `prefix4_validate` (length
32) and `prefix6_validate` (length 128) return 0 for every address; the result
is defined, so no shift by 32 or more is evaluated, and the mask of the word
concerned is the constant 0. -/
theorem validate_full_length (le : Bool) (s_addr : Nat) (a : in6_addr) :
    prefix4_validate le ⟨s_addr, 32⟩ = some 0
      ∧ prefix6_validate le ⟨a, 128⟩ = some 0
      ∧ u32_suffix_mask 32 = some 0
      ∧ u32_suffix_mask (usub32 128 96) = some 0
      ∧ be32_suffix_mask le 32 = some 0
      ∧ ipv6_suffix_mask le 128 in6_zero = some in6_zero := by
  have hm : be32_suffix_mask le 32 = some 0 := by
    cases le <;> rfl
  have h6 : ipv6_suffix_mask le 128 in6_zero = some in6_zero := by
    cases le <;> rfl
  refine ⟨?_, ?_, rfl, rfl, hm, h6⟩
  · simp [prefix4_validate, prefix4_validate_run, hm]
  · unfold prefix6_validate prefix6_validate_run
    rw [h6]
    simp [in6_zero]

/-- C10: for every `unsigned int` length `L`, `ipv6_suffix_mask` applied to a
zeroed `in6_addr` gives the per-word masks of the specification, where the
partial mask is the specification's network-byte-order suffix mask (which is 0
at 32 and above). -/
theorem ipv6_suffix_mask_spec (le : Bool) (L : Nat) (hL : L < 2 ^ 32) :
    ipv6_suffix_mask le L in6_zero = some (spec_ipv6_masks le L)
      ∧ spec_suffix_mask le 32 = 0 := by
  refine ⟨?_, by simp [spec_suffix_mask]⟩
  unfold ipv6_suffix_mask spec_ipv6_masks in6_zero
  by_cases h1 : L < 32
  · simp [h1, be32_suffix_mask_spec]
  · by_cases h2 : L < 64
    · simp [h1, h2, be32_suffix_mask_spec, usub32_of_le L 32 hL (by omega)]
    · by_cases h3 : L < 96
      · simp [h1, h2, h3, be32_suffix_mask_spec, usub32_of_le L 64 hL (by omega)]
      · simp [h1, h2, h3, be32_suffix_mask_spec, usub32_of_le L 96 hL (by omega)]

/-- C10, at length 40 on a little-endian host: word 0 is fully prefix, word 1
carries the mask of 8 (`00 ff ff ff` in memory), words 2 and 3 are all ones. -/
theorem ipv6_suffix_mask_spec_witness :
    (40 : Nat) < 2 ^ 32
      ∧ ipv6_suffix_mask true 40 in6_zero = some (spec_ipv6_masks true 40)
      ∧ spec_ipv6_masks true 40 = ⟨0, 0xFFFFFF00, 0xFFFFFFFF, 0xFFFFFFFF⟩ :=
  ⟨by decide, (ipv6_suffix_mask_spec true 40 (by decide)).1, by decide⟩

/-! ## Lemmas on `strtoul` -/

theorem isdigit_bounds (c : Char) (h : isdigit c = true) : 48 ≤ c.toNat ∧ c.toNat ≤ 57 := by
  simpa [isdigit] using h

theorem strtoul_digits_overflowed (s : List Char) (acc : Nat) (any : Int) (h : any < 0) :
    strtoul_digits s acc any = (acc, any) := by
  induction s with
  | nil => rfl
  | cons c s ih =>
    unfold strtoul_digits
    by_cases hc : isdigit c = true
    · simp [hc, h, ih]
    · simp [hc]

theorem le_foldl_digits (s : List Char) (acc : Nat) :
    acc ≤ s.foldl (fun n c => 10 * n + (c.toNat - 48)) acc := by
  induction s generalizing acc with
  | nil => exact Nat.le_refl _
  | cons c s ih =>
    simp only [List.foldl_cons]
    exact le_trans (by omega) (ih _)

/-- The digit loop on a text of digits: the value of the text when it fits an
`unsigned long`, and the overflow mark otherwise. -/
theorem strtoul_digits_all (s : List Char) (hs : ∀ c ∈ s, isdigit c = true) (acc : Nat)
    (any : Int) (hany : 0 ≤ any) (hacc : acc ≤ ULONG_MAX) :
    strtoul_digits s acc any =
      if s.foldl (fun n c => 10 * n + (c.toNat - 48)) acc ≤ ULONG_MAX then
        (s.foldl (fun n c => 10 * n + (c.toNat - 48)) acc, if s = [] then any else 1)
      else (ULONG_MAX, -1) := by
  induction s generalizing acc any with
  | nil => simp [strtoul_digits, hacc]
  | cons c s ih =>
    have hc : isdigit c = true := hs c (List.mem_cons_self c s)
    have hb := isdigit_bounds c hc
    have hs2 : ∀ d ∈ s, isdigit d = true := fun d hd => hs d (List.mem_cons_of_mem c hd)
    have hn : ¬ any < 0 := not_lt.mpr hany
    unfold strtoul_digits
    simp only [hc, if_true, hn, if_false, List.foldl_cons]
    by_cases hov : acc > ULONG_MAX / 10 ∨ (acc = ULONG_MAX / 10 ∧ c.toNat - 48 > ULONG_MAX % 10)
    · have hbig : ULONG_MAX < 10 * acc + (c.toNat - 48) := by
        simp only [ULONG_MAX] at hov ⊢
        omega
      have hbig2 := lt_of_lt_of_le hbig (le_foldl_digits s (10 * acc + (c.toNat - 48)))
      rw [if_pos hov, strtoul_digits_overflowed s ULONG_MAX (-1) (by decide),
        if_neg (not_le.mpr hbig2)]
    · have hfit : acc * 10 + (c.toNat - 48) ≤ ULONG_MAX := by
        simp only [ULONG_MAX] at hov ⊢
        omega
      rw [if_neg hov, ih hs2 (acc * 10 + (c.toNat - 48)) 1 (by decide) hfit,
        Nat.mul_comm acc 10]
      by_cases hle : List.foldl (fun n c => 10 * n + (c.toNat - 48))
          (10 * acc + (c.toNat - 48)) s ≤ ULONG_MAX
      · simp [hle]
      · simp [hle]

theorem dropWhile_isspace_digits (s : List Char) (hs : ∀ c ∈ s, isdigit c = true) :
    s.dropWhile isspace = s := by
  cases s with
  | nil => rfl
  | cons c s =>
    have hb := isdigit_bounds c (hs c (List.mem_cons_self c s))
    have : isspace c = false := by
      simp only [isspace, Bool.or_eq_false_iff, Bool.and_eq_false_iff, decide_eq_false_iff_not]
      omega
    simp [List.dropWhile, this]

theorem strtoul_sign_digits (s : List Char) (hs : ∀ c ∈ s, isdigit c = true) :
    strtoul_sign s = (false, s) := by
  cases s with
  | nil => rfl
  | cons c s =>
    have hb := isdigit_bounds c (hs c (List.mem_cons_self c s))
    have h1 : c ≠ '-' := by
      rintro rfl
      exact absurd hb.1 (by decide)
    have h2 : c ≠ '+' := by
      rintro rfl
      exact absurd hb.1 (by decide)
    simp [strtoul_sign, h1, h2]

/-- On a non-empty text of digits `strtoul` returns the value of the text with
`errno` left at 0 when it fits an `unsigned long`, and `ULONG_MAX` with
`ERANGE` otherwise. -/
theorem strtoul_digits_text (cfg : Bool) (s : List Char) (hs : ∀ c ∈ s, isdigit c = true)
    (hne : s ≠ []) :
    strtoul cfg s = if decimal_value s ≤ ULONG_MAX then (decimal_value s, 0)
      else (ULONG_MAX, ERANGE) := by
  unfold strtoul
  simp only [dropWhile_isspace_digits s hs, strtoul_sign_digits s hs,
    strtoul_digits_all s hs 0 0 (le_refl 0) (Nat.zero_le _), hne, if_false]
  unfold decimal_value
  by_cases h : List.foldl (fun n c => 10 * n + (c.toNat - 48)) 0 s ≤ ULONG_MAX
  · simp [h]
  · simp [h]

/-! ## Decoding theorems -/

/-- C4: for a non-empty text of decimal digits whose value `v` fits an
`unsigned long`, and `max_value` 32 or 128, `prefix_length_decode` returns 0
exactly when `v ≤ max_value`, and then stores exactly `v`. -/
theorem prefix_length_decode_digits (cfg : Bool) (text : List Char) (dst : Nat)
    (max_value : Int) (hs : ∀ c ∈ text, isdigit c = true) (hne : text ≠ [])
    (hv : decimal_value text ≤ ULONG_MAX) (hm : max_value = 32 ∨ max_value = 128) :
    ((prefix_length_decode cfg (some text) dst max_value).ret = 0
        ↔ (decimal_value text : Int) ≤ max_value)
      ∧ ((decimal_value text : Int) ≤ max_value
        → (prefix_length_decode cfg (some text) dst max_value).out = decimal_value text) := by
  unfold prefix_length_decode
  simp only [strtoul_digits_text cfg text hs hne, hv, if_true, ne_eq, not_true_eq_false,
    if_false, Nat.not_lt_zero, false_or]
  rcases hm with rfl | rfl
  · have hu : ulong_of_int 32 = 32 := by decide
    rw [hu]
    by_cases h : 32 < decimal_value text
    · have h2 : ¬ (decimal_value text : Int) ≤ 32 := by omega
      simp [h, h2, EINVAL]
    · have h2 : (decimal_value text : Int) ≤ 32 := by omega
      have h3 : decimal_value text < 4294967296 := by omega
      simp [h, h2, h3]
  · have hu : ulong_of_int 128 = 128 := by decide
    rw [hu]
    by_cases h : 128 < decimal_value text
    · have h2 : ¬ (decimal_value text : Int) ≤ 128 := by omega
      simp [h, h2, EINVAL]
    · have h2 : (decimal_value text : Int) ≤ 128 := by omega
      have h3 : decimal_value text < 4294967296 := by omega
      simp [h, h2, h3]

/-- C4, on the specification's examples: `"32"` with maximum 32 succeeds and
stores 32, `"33"` with maximum 32 fails. -/
theorem prefix_length_decode_digits_witness :
    (prefix_length_decode false (some ['3', '2']) 0 32).ret = 0
      ∧ (prefix_length_decode false (some ['3', '2']) 0 32).out = 32
      ∧ (prefix_length_decode false (some ['3', '3']) 0 32).ret ≠ 0 :=
  ⟨(prefix_length_decode_digits false ['3', '2'] 0 32 (by decide) (by decide) (by decide)
      (by decide)).1.mpr (by decide),
   (prefix_length_decode_digits false ['3', '2'] 0 32 (by decide) (by decide) (by decide)
      (by decide)).2 (by decide),
   fun h => absurd ((prefix_length_decode_digits false ['3', '3'] 0 32 (by decide) (by decide)
      (by decide) (by decide)).1.mp h) (by decide)⟩

/-- C5: the text `"24abc"` holds characters that are not digits, yet
`prefix_length_decode` returns 0 and stores 24, with either behaviour of the
library on a text without digits; and on a library that leaves `errno` alone
when nothing is converted, `"abc"` and the empty text are decoded as 0. -/
theorem prefix_length_decode_trailing_text :
    prefix_length_decode false (some ['2', '4', 'a', 'b', 'c']) 7 32 = ⟨0, 24, none⟩
      ∧ prefix_length_decode true (some ['2', '4', 'a', 'b', 'c']) 7 32 = ⟨0, 24, none⟩
      ∧ prefix_length_decode false (some ['a', 'b', 'c']) 7 32 = ⟨0, 0, none⟩
      ∧ prefix_length_decode false (some []) 7 32 = ⟨0, 0, none⟩ := by
  decide

/-- C6: the text `"-18446744073709551615"` denotes a negative integer, yet
`prefix_length_decode` returns 0 and stores 1 for the maxima 32 and 128: the
negation wraps in `unsigned long`, and the test `len < 0` never holds. -/
theorem prefix_length_decode_negative_accepted :
    prefix_length_decode false (some "-18446744073709551615".toList) 7 32 = ⟨0, 1, none⟩
      ∧ prefix_length_decode false (some "-18446744073709551615".toList) 7 128 = ⟨0, 1, none⟩
      ∧ prefix_length_decode true (some "-18446744073709551615".toList) 7 32 = ⟨0, 1, none⟩
      ∧ prefix_length_decode false (some "-1".toList) 7 32
          = ⟨-EINVAL, 7, some .length_out_of_bounds⟩ := by
  decide

/-- C7: for every text and every `int` `max_value ≥ 0`, when
`prefix_length_decode` returns 0 the value stored is in `[0, max_value]`. -/
theorem prefix_length_decode_range (cfg : Bool) (text : Option (List Char)) (dst : Nat)
    (max_value : Int) (h0 : 0 ≤ max_value) (hmax : max_value ≤ 2 ^ 31 - 1)
    (hret : (prefix_length_decode cfg text dst max_value).ret = 0) :
    (0 : Int) ≤ (prefix_length_decode cfg text dst max_value).out
      ∧ ((prefix_length_decode cfg text dst max_value).out : Int) ≤ max_value := by
  refine ⟨Int.ofNat_nonneg _, ?_⟩
  have hu : (ulong_of_int max_value : Int) = max_value := by
    unfold ulong_of_int
    omega
  cases text with
  | none => exact absurd hret (by simp [prefix_length_decode, EINVAL])
  | some t =>
    unfold prefix_length_decode at hret ⊢
    simp only [ne_eq, Nat.not_lt_zero, false_or] at hret ⊢
    by_cases h1 : (strtoul cfg t).2 = 0
    · by_cases h2 : ulong_of_int max_value < (strtoul cfg t).1
      · simp [h1, h2, EINVAL] at hret
      · simp only [h1, not_true_eq_false, if_false, h2]
        have h3 : (strtoul cfg t).1 % 2 ^ 32 ≤ (strtoul cfg t).1 := Nat.mod_le _ _
        omega
    · simp [h1, EINVAL] at hret

/-- C7, at the text `"24"` with maximum 32. -/
theorem prefix_length_decode_range_witness :
    (prefix_length_decode false (some ['2', '4']) 0 32).ret = 0
      ∧ (0 : Int) ≤ (prefix_length_decode false (some ['2', '4']) 0 32).out
      ∧ ((prefix_length_decode false (some ['2', '4']) 0 32).out : Int) ≤ 32 :=
  ⟨by decide, prefix_length_decode_range false (some ['2', '4']) 0 32 (by decide) (by decide)
    (by decide)⟩

/-- C8: for a text of decimal digits whose value does not fit a 64-bit
`unsigned long` (`strtoul` reports `ERANGE`), `prefix_length_decode` returns
the non-zero error `-EINVAL` and stores nothing, whatever `max_value` is. -/
theorem prefix_length_decode_overflow (cfg : Bool) (text : List Char) (dst : Nat)
    (max_value : Int) (hs : ∀ c ∈ text, isdigit c = true) (hv : 2 ^ 64 ≤ decimal_value text) :
    (prefix_length_decode cfg (some text) dst max_value).ret = -EINVAL
      ∧ (prefix_length_decode cfg (some text) dst max_value).ret ≠ 0
      ∧ (prefix_length_decode cfg (some text) dst max_value).out = dst := by
  have hne : text ≠ [] := by
    rintro rfl
    simp [decimal_value] at hv
  have hbig : ¬ decimal_value text ≤ ULONG_MAX := by
    simp only [ULONG_MAX]
    omega
  unfold prefix_length_decode
  simp [strtoul_digits_text cfg text hs hne, hbig, ERANGE, EINVAL]

/-- C8, at the text `"18446744073709551616"`, which denotes `2 ^ 64`. -/
theorem prefix_length_decode_overflow_witness :
    2 ^ 64 ≤ decimal_value "18446744073709551616".toList
      ∧ (prefix_length_decode false (some "18446744073709551616".toList) 7 128).ret = -EINVAL
      ∧ (prefix_length_decode false (some "18446744073709551616".toList) 7 128).ret ≠ 0
      ∧ (prefix_length_decode false (some "18446744073709551616".toList) 7 128).out = 7 :=
  ⟨by decide, prefix_length_decode_overflow false "18446744073709551616".toList 7 128
    (by decide) (by decide)⟩

theorem htonl_ones (le : Bool) : htonl le 0xFFFFFFFF = 0xFFFFFFFF := by
  cases le <;> rfl

theorem mask_and_mask (a b : Nat) (h : a ≤ b) : (2 ^ a - 1) &&& (2 ^ b - 1) = 2 ^ a - 1 := by
  rw [Nat.and_pow_two_sub_one_eq_mod]
  apply Nat.mod_eq_of_lt
  have h1 : 2 ^ a ≤ 2 ^ b := Nat.pow_le_pow_right (by decide) h
  have h2 : 0 < 2 ^ a := Nat.two_pow_pos a
  omega

/-- A word that has no bit in common with the mask of a length has none in
common with the mask of a greater length. -/
theorem and_mask_mono (le : Bool) (x a b : Nat) (h : a ≤ b)
    (hx : x &&& htonl le (2 ^ b - 1) = 0) : x &&& htonl le (2 ^ a - 1) = 0 := by
  rw [← mask_and_mask a b h, ← htonl_and, ← Nat.and_assoc, Nat.and_comm x, Nat.and_assoc, hx]
  exact Nat.and_zero _

/-- The value of `*result` after `ipv6_suffix_mask` on a zeroed `in6_addr`, in
one formula for the four words. -/
theorem ipv6_suffix_mask_words (le : Bool) (L : Nat) (hL : L < 2 ^ 32) :
    ipv6_suffix_mask le L in6_zero = some
      ⟨htonl le (2 ^ (32 - L) - 1), htonl le (2 ^ (32 - (L - 32)) - 1),
        htonl le (2 ^ (32 - (L - 64)) - 1), htonl le (2 ^ (32 - (L - 96)) - 1)⟩ := by
  rw [ipv6_suffix_mask_pow le L hL]
  by_cases h1 : L < 32
  · have e1 : L - 32 = 0 := by omega
    have e2 : L - 64 = 0 := by omega
    have e3 : L - 96 = 0 := by omega
    simp [h1, e1, e2, e3, htonl_ones]
  · by_cases h2 : L < 64
    · have e0 : 32 - L = 0 := by omega
      have e2 : L - 64 = 0 := by omega
      have e3 : L - 96 = 0 := by omega
      simp [h1, h2, e0, e2, e3, htonl_ones, htonl_zero]
    · by_cases h3 : L < 96
      · have e0 : 32 - L = 0 := by omega
        have e1 : 32 - (L - 32) = 0 := by omega
        have e3 : L - 96 = 0 := by omega
        simp [h1, h2, h3, e0, e1, e3, htonl_ones, htonl_zero]
      · have e0 : 32 - L = 0 := by omega
        have e1 : 32 - (L - 32) = 0 := by omega
        have e2 : 32 - (L - 64) = 0 := by omega
        simp [h1, h2, h3, e0, e1, e2, htonl_zero]

theorem prefix4_validate_run_eq (le : Bool) (p : ipv4_prefix) :
    prefix4_validate_run le p
      = some (if (p.s_addr &&& htonl le (2 ^ (32 - p.len) - 1)) ≠ 0 then -EINVAL else 0, p) := by
  unfold prefix4_validate_run
  rw [be32_suffix_mask_pow]
  simp only [Option.map_some']
  split_ifs <;> rfl

theorem be32_suffix_mask_some (le : Bool) (n : Nat) : ∃ m, be32_suffix_mask le n = some m :=
  ⟨_, be32_suffix_mask_pow le n⟩

theorem ipv6_suffix_mask_some (le : Bool) (n : Nat) (r : in6_addr) :
    ∃ m, ipv6_suffix_mask le n r = some m := by
  unfold ipv6_suffix_mask
  split_ifs
  · obtain ⟨m, hm⟩ := be32_suffix_mask_some le n
    exact ⟨_, by rw [hm]; rfl⟩
  · obtain ⟨m, hm⟩ := be32_suffix_mask_some le (usub32 n 32)
    exact ⟨_, by rw [hm]; rfl⟩
  · obtain ⟨m, hm⟩ := be32_suffix_mask_some le (usub32 n 64)
    exact ⟨_, by rw [hm]; rfl⟩
  · obtain ⟨m, hm⟩ := be32_suffix_mask_some le (usub32 n 96)
    exact ⟨_, by rw [hm]; rfl⟩

/-- C14: `prefix4_validate` and `prefix6_validate` return a code and leave the
prefix as it was, whether the check passes or fails, so a second validation of
the prefix left behind gives the same result as the first. -/
theorem validate_leaves_prefix (le : Bool) (p4 : ipv4_prefix) (p6 : ipv6_prefix) :
    (∃ c, prefix4_validate_run le p4 = some (c, p4)
        ∧ (c = 0 ∨ c = -EINVAL)
        ∧ ∀ r, prefix4_validate_run le p4 = some r → prefix4_validate_run le r.2 = some r)
      ∧ (∃ c, prefix6_validate_run le p6 = some (c, p6)
        ∧ (c = 0 ∨ c = -EINVAL)
        ∧ ∀ r, prefix6_validate_run le p6 = some r → prefix6_validate_run le r.2 = some r) := by
  constructor
  · obtain ⟨m, hm⟩ := be32_suffix_mask_some le p4.len
    have h : prefix4_validate_run le p4
        = some (if (p4.s_addr &&& m) ≠ 0 then -EINVAL else 0, p4) := by
      unfold prefix4_validate_run
      rw [hm]
      simp only [Option.map_some']
      split_ifs <;> rfl
    refine ⟨_, h, ?_, ?_⟩
    · split_ifs
      · exact Or.inr rfl
      · exact Or.inl rfl
    · intro r hr
      rw [h] at hr
      cases hr
      exact h
  · obtain ⟨m, hm⟩ := ipv6_suffix_mask_some le p6.len in6_zero
    have h : prefix6_validate_run le p6
        = some (if (p6.addr.s6_addr32_0 &&& m.s6_addr32_0) ≠ 0
              ∨ (p6.addr.s6_addr32_1 &&& m.s6_addr32_1) ≠ 0
              ∨ (p6.addr.s6_addr32_2 &&& m.s6_addr32_2) ≠ 0
              ∨ (p6.addr.s6_addr32_3 &&& m.s6_addr32_3) ≠ 0 then -EINVAL else 0, p6) := by
      unfold prefix6_validate_run
      rw [hm]
      simp only [Option.map_some']
      split_ifs <;> rfl
    refine ⟨_, h, ?_, ?_⟩
    · split_ifs
      · exact Or.inr rfl
      · exact Or.inl rfl
    · intro r hr
      rw [h] at hr
      cases hr
      exact h

/-- C15: `u32_suffix_mask(prefix_len)` is `2 ^ (32 - prefix_len) - 1` below 32
and 0 from 32 on, in host byte order; it is `0xFFFFFFFF` at 0 and `0x000000FF`
(that is 0.0.0.255) at 24. -/
theorem u32_suffix_mask_value (prefix_len : Nat) :
    u32_suffix_mask prefix_len
        = some (if prefix_len < 32 then 2 ^ (32 - prefix_len) - 1 else 0)
      ∧ u32_suffix_mask 0 = some 0xFFFFFFFF
      ∧ u32_suffix_mask 24 = some 0x000000FF
      ∧ value32 0 0 0 255 = 0x000000FF :=
  ⟨u32_suffix_mask_eq prefix_len, rfl, rfl, rfl⟩

theorem prefix4_validate_zero_iff (le : Bool) (p : ipv4_prefix) :
    prefix4_validate le p = some 0 ↔ p.s_addr &&& htonl le (2 ^ (32 - p.len) - 1) = 0 := by
  unfold prefix4_validate
  rw [prefix4_validate_run_eq]
  simp only [Option.map_some', Option.some.injEq, ne_eq]
  split_ifs with h <;> simp [h, EINVAL]

theorem prefix6_validate_zero_iff (le : Bool) (a : in6_addr) (L : Nat) (hL : L < 2 ^ 32) :
    prefix6_validate le ⟨a, L⟩ = some 0 ↔
      a.s6_addr32_0 &&& htonl le (2 ^ (32 - L) - 1) = 0
        ∧ a.s6_addr32_1 &&& htonl le (2 ^ (32 - (L - 32)) - 1) = 0
        ∧ a.s6_addr32_2 &&& htonl le (2 ^ (32 - (L - 64)) - 1) = 0
        ∧ a.s6_addr32_3 &&& htonl le (2 ^ (32 - (L - 96)) - 1) = 0 :=
  (prefix6_validate_of_mask le ⟨a, L⟩ _ (ipv6_suffix_mask_words le L hL)).1

/-- C16: validation is monotone in the length: for `unsigned int` lengths
`L ≤ L2`, a prefix that `prefix4_validate` (or `prefix6_validate`) accepts at
`L` is accepted at `L2`; every length from the address width on (33 or 200 as
well) is accepted for every address. -/
theorem validate_monotone (le : Bool) (s_addr : Nat) (a : in6_addr) (L L2 : Nat)
    (hle : L ≤ L2) (hL2 : L2 < 2 ^ 32) :
    (prefix4_validate le ⟨s_addr, L⟩ = some 0 → prefix4_validate le ⟨s_addr, L2⟩ = some 0)
      ∧ (prefix6_validate le ⟨a, L⟩ = some 0 → prefix6_validate le ⟨a, L2⟩ = some 0)
      ∧ (32 ≤ L → prefix4_validate le ⟨s_addr, L⟩ = some 0)
      ∧ (128 ≤ L → prefix6_validate le ⟨a, L⟩ = some 0) := by
  have hL : L < 2 ^ 32 := lt_of_le_of_lt hle hL2
  have hz : ∀ x : Nat, x &&& htonl le (2 ^ 0 - 1) = 0 := by
    intro x
    simp [htonl_zero]
  refine ⟨?_, ?_, ?_, ?_⟩
  · rw [prefix4_validate_zero_iff, prefix4_validate_zero_iff]
    exact and_mask_mono le s_addr _ _ (by simp only; omega)
  · rw [prefix6_validate_zero_iff le a L hL, prefix6_validate_zero_iff le a L2 hL2]
    rintro ⟨h0, h1, h2, h3⟩
    exact ⟨and_mask_mono le _ _ _ (by omega) h0, and_mask_mono le _ _ _ (by omega) h1,
      and_mask_mono le _ _ _ (by omega) h2, and_mask_mono le _ _ _ (by omega) h3⟩
  · intro h
    rw [prefix4_validate_zero_iff]
    have e : 32 - L = 0 := by omega
    simp only [e]
    exact hz _
  · intro h
    rw [prefix6_validate_zero_iff le a L hL]
    have e0 : 32 - L = 0 := by omega
    have e1 : 32 - (L - 32) = 0 := by omega
    have e2 : 32 - (L - 64) = 0 := by omega
    have e3 : 32 - (L - 96) = 0 := by omega
    rw [e0, e1, e2, e3]
    exact ⟨hz _, hz _, hz _, hz _⟩

/-- C16, on `192.0.2.0` (accepted at 24, hence at 30), on `2001:db8::`
(accepted at 32, hence at 48), and at the out-of-range lengths 33 and 200. -/
theorem validate_monotone_witness :
    prefix4_validate true ⟨load32 true 192 0 2 0, 24⟩ = some 0
      ∧ prefix4_validate true ⟨load32 true 192 0 2 0, 30⟩ = some 0
      ∧ prefix6_validate true ⟨in6_of_words true 0x20010db8 0 0 0, 32⟩ = some 0
      ∧ prefix6_validate true ⟨in6_of_words true 0x20010db8 0 0 0, 48⟩ = some 0
      ∧ prefix4_validate true ⟨load32 true 192 0 2 1, 33⟩ = some 0
      ∧ prefix6_validate true ⟨in6_of_words true 0x20010db8 0 0 1, 200⟩ = some 0 :=
  ⟨by decide,
   (validate_monotone true (load32 true 192 0 2 0) (in6_of_words true 0x20010db8 0 0 0) 24 30
      (by decide) (by decide)).1 (by decide),
   by decide,
   (validate_monotone true (load32 true 192 0 2 0) (in6_of_words true 0x20010db8 0 0 0) 32 48
      (by decide) (by decide)).2.1 (by decide),
   (validate_monotone true (load32 true 192 0 2 1) (in6_of_words true 0x20010db8 0 0 1) 33 33
      (by decide) (by decide)).2.2.1 (by decide),
   (validate_monotone true (load32 true 192 0 2 1) (in6_of_words true 0x20010db8 0 0 1) 200 200
      (by decide) (by decide)).2.2.2 (by decide)⟩

/-! ## Further theorems on decoding -/

/-- C18: whenever `prefix_length_decode` fails (null text, conversion error or
value above `max_value`), `*dst` keeps the value it had; it is written only on
the path that returns 0. -/
theorem prefix_length_decode_keeps_dst (cfg : Bool) (text : Option (List Char)) (dst : Nat)
    (max_value : Int) (hfail : (prefix_length_decode cfg text dst max_value).ret ≠ 0) :
    (prefix_length_decode cfg text dst max_value).out = dst := by
  cases text with
  | none => rfl
  | some t =>
    unfold prefix_length_decode at hfail ⊢
    simp only at hfail ⊢
    split_ifs at hfail ⊢
    · rfl
    · rfl
    · exact absurd rfl hfail

/-- C18, on the three failures: a null text, a text too large for `strtoul`
and a length above the maximum. -/
theorem prefix_length_decode_keeps_dst_witness :
    (prefix_length_decode false none 7 32).ret ≠ 0
      ∧ (prefix_length_decode false none 7 32).out = 7
      ∧ (prefix_length_decode false (some "99999999999999999999".toList) 7 32).out = 7
      ∧ (prefix_length_decode false (some "33".toList) 7 32).out = 7 :=
  ⟨by decide, prefix_length_decode_keeps_dst false none 7 32 (by decide),
   prefix_length_decode_keeps_dst false (some "99999999999999999999".toList) 7 32 (by decide),
   prefix_length_decode_keeps_dst false (some "33".toList) 7 32 (by decide)⟩

/-- C20: the test `len < 0` of `prefix_length_decode` is dead code: for every
text and every `max_value` the function returns the same code, stores the same
value and writes the same diagnostic as with `max_value < len` alone. -/
theorem prefix_length_decode_lower_test_dead (cfg : Bool) (text : Option (List Char))
    (dst : Nat) (max_value : Int) :
    prefix_length_decode cfg text dst max_value
      = prefix_length_decode_upper_only cfg text dst max_value := by
  cases text with
  | none => rfl
  | some t =>
    unfold prefix_length_decode prefix_length_decode_upper_only
    simp only [Nat.not_lt_zero, false_or]

/-! ## Theorems on the log settings -/

/-- C19: `parse_argv_log_level` accepts exactly `error`, `warning`, `info` and
`debug`, `parse_argv_log_output` exactly `syslog` and `console`; the value
stored for an accepted string is printed back as that string, never as
`<unknown>`; for any other string the parser returns the error of `pr_err` and
leaves the result as it was. -/
theorem log_settings_round_trip (pr_err_code : Int) (herr : pr_err_code ≠ 0) (str : String)
    (result : Nat) :
    ((parse_argv_log_level pr_err_code str result).1 = 0
        ↔ str ∈ ["error", "warning", "info", "debug"])
      ∧ ((parse_argv_log_output pr_err_code str result).1 = 0
        ↔ str ∈ ["syslog", "console"])
      ∧ (str ∈ ["error", "warning", "info", "debug"]
        → print_log_level (parse_argv_log_level pr_err_code str result).2 = str
          ∧ print_log_level (parse_argv_log_level pr_err_code str result).2 ≠ "<unknown>")
      ∧ (str ∈ ["syslog", "console"]
        → print_log_output (parse_argv_log_output pr_err_code str result).2 = str
          ∧ print_log_output (parse_argv_log_output pr_err_code str result).2 ≠ "<unknown>")
      ∧ (str ∉ ["error", "warning", "info", "debug"]
        → parse_argv_log_level pr_err_code str result = (pr_err_code, result))
      ∧ (str ∉ ["syslog", "console"]
        → parse_argv_log_output pr_err_code str result = (pr_err_code, result)) := by
  refine ⟨?_, ?_, ?_, ?_, ?_, ?_⟩
  · unfold parse_argv_log_level
    by_cases h1 : str = "error"
    · simp [h1]
    · by_cases h2 : str = "warning"
      · simp [h2]
      · by_cases h3 : str = "info"
        · simp [h3]
        · by_cases h4 : str = "debug"
          · simp [h4]
          · simp [h1, h2, h3, h4, herr]
  · unfold parse_argv_log_output
    by_cases h1 : str = "syslog"
    · simp [h1]
    · by_cases h2 : str = "console"
      · simp [h2]
      · simp [h1, h2, herr]
  · intro h
    simp only [List.mem_cons, List.mem_singleton, List.not_mem_nil, or_false] at h
    rcases h with h | h | h | h <;> subst h <;>
      simp [parse_argv_log_level, print_log_level, LOG_ERR, LOG_WARNING, LOG_INFO, LOG_DEBUG]
  · intro h
    simp only [List.mem_cons, List.mem_singleton, List.not_mem_nil, or_false] at h
    rcases h with h | h <;> subst h <;>
      simp [parse_argv_log_output, print_log_output, SYSLOG, CONSOLE]
  · intro h
    simp only [List.mem_cons, List.mem_singleton, List.not_mem_nil, or_false, not_or] at h
    simp [parse_argv_log_level, h.1, h.2.1, h.2.2.1, h.2.2.2]
  · intro h
    simp only [List.mem_cons, List.mem_singleton, List.not_mem_nil, or_false, not_or] at h
    simp [parse_argv_log_output, h.1, h.2]

/-- C19, on `warning` and `console` (accepted and printed back) and on `verbose`
(rejected by both parsers, the result left as it was). -/
theorem log_settings_round_trip_witness :
    (parse_argv_log_level (-22) "warning" 9).1 = 0
      ∧ print_log_level (parse_argv_log_level (-22) "warning" 9).2 = "warning"
      ∧ print_log_output (parse_argv_log_output (-22) "console" 9).2 = "console"
      ∧ parse_argv_log_level (-22) "verbose" 9 = (-22, 9)
      ∧ parse_argv_log_output (-22) "verbose" 9 = (-22, 9) :=
  ⟨(log_settings_round_trip (-22) (by decide) "warning" 9).1.mpr (by decide),
   ((log_settings_round_trip (-22) (by decide) "warning" 9).2.2.1 (by decide)).1,
   ((log_settings_round_trip (-22) (by decide) "console" 9).2.2.2.1 (by decide)).1,
   (log_settings_round_trip (-22) (by decide) "verbose" 9).2.2.2.2.1 (by decide),
   (log_settings_round_trip (-22) (by decide) "verbose" 9).2.2.2.2.2 (by decide)⟩

/-! ## Lemmas on the tokenizer -/

theorem take_length_takeWhile (p : Int → Bool) (l : List Int) :
    l.take (l.takeWhile p).length = l.takeWhile p := by
  induction l with
  | nil => rfl
  | cons c l ih =>
    by_cases h : p c = true
    · simp [List.takeWhile_cons, h, ih]
    · simp [List.takeWhile_cons, h]

theorem drop_length_takeWhile (p : Int → Bool) (l : List Int) :
    l.drop (l.takeWhile p).length = l.dropWhile p := by
  induction l with
  | nil => rfl
  | cons c l ih =>
    by_cases h : p c = true
    · simp [List.takeWhile_cons, List.dropWhile_cons, h, ih]
    · simp [List.takeWhile_cons, List.dropWhile_cons, h]

theorem length_takeWhile_add (p : Int → Bool) (l : List Int) :
    (l.takeWhile p).length + (l.dropWhile p).length = l.length := by
  rw [← List.length_append, List.takeWhile_append_dropWhile]

/-- The scanning loop stops at the first separator at or after `e`, or at
`str_len` when there is none. -/
theorem scan_eq (t : string_tokenizer) (hlen : t.str_len = t.str.length)
    (h64 : t.str_len < 2 ^ 64) (fuel e : Nat) (he : e ≤ t.str_len)
    (hfuel : t.str_len - e ≤ fuel) :
    string_tokenizer_scan t fuel e
      = some (e + ((t.str.drop e).takeWhile fun c => !(c == t.separator)).length) := by
  induction fuel generalizing e with
  | zero =>
    have h1 : e = t.str_len := by omega
    have h2 : t.str.drop e = [] := by
      apply List.drop_eq_nil_of_le
      omega
    simp [string_tokenizer_scan, h1, h2, hlen]
  | succ fuel ih =>
    unfold string_tokenizer_scan
    by_cases h1 : e < t.str_len
    · have h2 : e < t.str.length := by omega
      have h3 : t.str.drop e = t.str[e] :: t.str.drop (e + 1) := List.drop_eq_getElem_cons h2
      have h4 : t.str[e]? = some t.str[e] := List.getElem?_eq_getElem h2
      have h5 : (e + 1) % 2 ^ 64 = e + 1 := Nat.mod_eq_of_lt (by omega)
      rw [if_pos h1, h4, h3]
      simp only
      by_cases h6 : t.str[e] = t.separator
      · simp [h6]
      · have h7 : List.takeWhile (fun c => !(c == t.separator)) (t.str[e] :: t.str.drop (e + 1))
            = t.str[e] :: List.takeWhile (fun c => !(c == t.separator)) (t.str.drop (e + 1)) := by
          have hp : (!(t.str[e] == t.separator)) = true := by simp [h6]
          rw [List.takeWhile_cons]
          simp only [hp, if_true]
        rw [if_neg h6, h5, ih (e + 1) (by omega) (by omega), h7]
        simp only [List.length_cons]
        congr 1
        omega
    · have h2 : t.str.drop e = [] := by
        apply List.drop_eq_nil_of_le
        omega
      simp [h1, h2]

/-- The position at which the scanning loop started at `e` stops. -/
theorem scan_stop_le (t : string_tokenizer) (hlen : t.str_len = t.str.length) (e : Nat)
    (he : e ≤ t.str_len) :
    e + ((t.str.drop e).takeWhile fun c => !(c == t.separator)).length ≤ t.str_len := by
  have h := length_takeWhile_add (fun c => !(c == t.separator)) (t.str.drop e)
  rw [List.length_drop] at h
  omega

/-- A closed form of `string_tokenizer_next` on a tokenizer whose buffer holds
`str_len` elements and whose `end` is within it. -/
theorem next_eq (t : string_tokenizer) (hlen : t.str_len = t.str.length)
    (h64 : t.str_len < 2 ^ 64) (hend : t.end_ ≤ t.str_len) :
    string_tokenizer_next t =
      if t.end_ = t.str_len then some (false, t)
      else if t.end_ ≠ 0 then
        if t.end_ + 1 = t.str_len then some (false, t)
        else some (true, { t with
          start := t.end_ + 1
          end_ := t.end_ + 1
            + ((t.str.drop (t.end_ + 1)).takeWhile fun c => !(c == t.separator)).length })
      else some (true, { t with
        end_ := t.end_ + ((t.str.drop t.end_).takeWhile fun c => !(c == t.separator)).length }) := by
  unfold string_tokenizer_next
  by_cases h1 : t.end_ = t.str_len
  · simp [h1]
  · have h2 : (t.end_ + 1) % 2 ^ 64 = t.end_ + 1 := Nat.mod_eq_of_lt (by omega)
    rw [if_neg h1, if_neg h1]
    by_cases h3 : t.end_ ≠ 0
    · rw [if_pos h3, if_pos h3]
      simp only [h2]
      by_cases h4 : t.end_ + 1 = t.str_len
      · rw [if_pos h4, if_pos h4]
      · rw [if_neg h4, if_neg h4, scan_eq t hlen h64 _ _ (by omega) (le_refl _)]
        rfl
    · rw [if_neg h3, if_neg h3, scan_eq t hlen h64 _ _ hend (le_refl _)]
      rfl

/-- One call of `string_tokenizer_next` is defined and keeps the invariant,
the buffer, its length and the separator. -/
theorem next_inv (t : string_tokenizer) (hlen : t.str_len = t.str.length)
    (h64 : t.str_len < 2 ^ 64) (hinv : tokenizer_inv t) :
    ∃ r, string_tokenizer_next t = some r ∧ tokenizer_inv r.2 ∧ r.2.str = t.str
      ∧ r.2.str_len = t.str_len ∧ r.2.separator = t.separator := by
  rw [next_eq t hlen h64 hinv.2]
  unfold tokenizer_inv at hinv ⊢
  by_cases h1 : t.end_ = t.str_len
  · exact ⟨(false, t), by rw [if_pos h1], hinv, rfl, rfl, rfl⟩
  · rw [if_neg h1]
    by_cases h3 : t.end_ ≠ 0
    · rw [if_pos h3]
      by_cases h4 : t.end_ + 1 = t.str_len
      · exact ⟨(false, t), by rw [if_pos h4], hinv, rfl, rfl, rfl⟩
      · rw [if_neg h4]
        refine ⟨_, rfl, ⟨?_, ?_⟩, rfl, rfl, rfl⟩
        · simp only
          omega
        · exact scan_stop_le t hlen (t.end_ + 1) (by omega)
    · rw [if_neg h3]
      refine ⟨_, rfl, ⟨?_, ?_⟩, rfl, rfl, rfl⟩
      · simp only
        omega
      · exact scan_stop_le t hlen t.end_ hinv.2

/-- After any number of calls the tokenizer is defined and keeps the invariant,
the buffer, its length and the separator. -/
theorem after_inv (n : Nat) (t : string_tokenizer) (hlen : t.str_len = t.str.length)
    (h64 : t.str_len < 2 ^ 64) (hinv : tokenizer_inv t) :
    ∃ t2, string_tokenizer_after n t = some t2 ∧ tokenizer_inv t2 ∧ t2.str = t.str
      ∧ t2.str_len = t.str_len ∧ t2.separator = t.separator := by
  induction n generalizing t with
  | zero => exact ⟨t, rfl, hinv, rfl, rfl, rfl⟩
  | succ n ih =>
    obtain ⟨r, hr, hi, hs, hl, hp⟩ := next_inv t hlen h64 hinv
    obtain ⟨t2, ht2, hi2, hs2, hl2, hp2⟩ := ih r.2 (by rw [hl, hs, hlen]) (by rw [hl]; exact h64) hi
    refine ⟨t2, ?_, hi2, hs2.trans hs, hl2.trans hl, hp2.trans hp⟩
    simp [string_tokenizer_after, hr, ht2]

theorem usub64_of_le (a b : Nat) (ha : a < 2 ^ 64) (hb : b ≤ a) : usub64 a b = a - b := by
  unfold usub64
  omega

/-- The pieces of a split: the run before the first separator, then the
pieces of what follows that separator, if there is one. -/
theorem splitOn_eq (sep : Int) (l : List Int) :
    l.splitOn sep = l.takeWhile (fun c => !(c == sep))
      :: (match l.dropWhile (fun c => !(c == sep)) with
          | [] => []
          | _ :: l2 => l2.splitOn sep) := by
  induction l with
  | nil => rfl
  | cons c l ih =>
    unfold List.splitOn at ih ⊢
    rw [List.splitOnP_cons]
    by_cases h : c = sep
    · simp [h, List.takeWhile_cons, List.dropWhile_cons]
    · have h2 : (c == sep) = false := by simp [h]
      rw [ih]
      simp [h2, List.takeWhile_cons, List.dropWhile_cons, List.modifyHead]

theorem splitOn_ne_nil (sep : Int) (l : List Int) : l.splitOn sep ≠ [] := by
  rw [splitOn_eq]
  exact List.cons_ne_nil _ _

theorem drop_final_empty_cons (x : List Int) (xs : List (List Int)) (h : xs ≠ []) :
    drop_final_empty (x :: xs) = x :: drop_final_empty xs := by
  obtain ⟨y, ys, rfl⟩ := List.exists_cons_of_ne_nil h
  unfold drop_final_empty
  rw [List.getLast?_cons_cons, List.dropLast_cons₂]
  split_ifs <;> rfl

theorem split_pieces_nil (sep : Int) : split_pieces sep [] = [] := by
  simp [split_pieces, drop_final_empty]

/-- The pieces of a non-empty string: the run before the first separator, then
the pieces of what follows that separator. -/
theorem split_pieces_cons (sep : Int) (l : List Int) (hl : l ≠ []) :
    split_pieces sep l = l.takeWhile (fun c => !(c == sep))
      :: split_pieces sep (l.dropWhile fun c => !(c == sep)).tail := by
  unfold split_pieces
  rw [splitOn_eq sep l]
  cases hd : l.dropWhile (fun c => !(c == sep)) with
  | nil =>
    have h1 : l.takeWhile (fun c => !(c == sep)) = l := by
      have := List.takeWhile_append_dropWhile (fun c => !(c == sep)) l
      rw [hd, List.append_nil] at this
      exact this
    have h2 : ¬ l = [] := hl
    simp [drop_final_empty, h1, h2]
  | cons c l2 =>
    simp only [List.tail_cons]
    exact drop_final_empty_cons _ _ (splitOn_ne_nil sep l2)

/-- No piece of a split holds the separator. -/
theorem split_pieces_no_separator (sep : Int) (n : Nat) (l : List Int) (hn : l.length ≤ n) :
    ∀ tok ∈ split_pieces sep l, sep ∉ tok := by
  induction n generalizing l with
  | zero =>
    have : l = [] := List.length_eq_zero.mp (by omega)
    subst this
    simp [split_pieces_nil]
  | succ n ih =>
    by_cases hl : l = []
    · subst hl
      simp [split_pieces_nil]
    · rw [split_pieces_cons sep l hl]
      intro tok htok
      rcases List.mem_cons.mp htok with h | h
      · subst h
        intro hmem
        have := List.mem_takeWhile_imp hmem
        simp at this
      · apply ih _ _ tok h
        have h1 := length_takeWhile_add (fun c => !(c == sep)) l
        have h2 : ((l.dropWhile fun c => !(c == sep)).tail).length
            = (l.dropWhile fun c => !(c == sep)).length - 1 := List.length_tail _
        have h3 : 0 < l.length := List.length_pos.mpr hl
        omega

theorem split_pieces_step (sep : Int) (l : List Int) (hl : l ≠ []) :
    split_pieces sep l = l.take (l.takeWhile fun c => !(c == sep)).length
      :: split_pieces sep (l.drop ((l.takeWhile fun c => !(c == sep)).length + 1)) := by
  rw [split_pieces_cons sep l hl, take_length_takeWhile, ← List.tail_drop,
    drop_length_takeWhile]

/-- The tokens reported from a tokenizer whose `end` is past the start of the
string: the pieces of the string after the position `end`. -/
theorem tokens_from_end (fuel : Nat) (t : string_tokenizer) (hlen : t.str_len = t.str.length)
    (h64 : t.str_len < 2 ^ 64) (hpos : 0 < t.end_) (hend : t.end_ ≤ t.str_len)
    (hfuel : t.str_len + 1 ≤ fuel + t.end_) :
    string_tokenizer_tokens fuel t
      = some (split_pieces t.separator (t.str.drop (t.end_ + 1))) := by
  induction fuel generalizing t with
  | zero => omega
  | succ fuel ih =>
    unfold string_tokenizer_tokens
    rw [next_eq t hlen h64 hend]
    by_cases h1 : t.end_ = t.str_len
    · have h2 : t.str.drop (t.end_ + 1) = [] := List.drop_eq_nil_of_le (by omega)
      rw [if_pos h1, h2, split_pieces_nil]
    · have h3 : t.end_ ≠ 0 := by omega
      rw [if_neg h1, if_pos h3]
      by_cases h4 : t.end_ + 1 = t.str_len
      · have h2 : t.str.drop (t.end_ + 1) = [] := List.drop_eq_nil_of_le (by omega)
        rw [if_pos h4, h2, split_pieces_nil]
      · rw [if_neg h4]
        simp only
        have hne : t.str.drop (t.end_ + 1) ≠ [] := by
          intro h
          have := congrArg List.length h
          rw [List.length_drop] at this
          simp only [List.length_nil] at this
          omega
        have hstop := scan_stop_le t hlen (t.end_ + 1) (by omega)
        have key := ih { t with
            start := t.end_ + 1
            end_ := t.end_ + 1
              + ((t.str.drop (t.end_ + 1)).takeWhile fun c => !(c == t.separator)).length }
          hlen h64 (by simp only; omega) hstop (by simp only; omega)
        rw [key]
        simp only [Option.map_some', token, Nat.add_sub_cancel_left]
        rw [split_pieces_step t.separator _ hne, List.drop_drop]
        rfl

/-! ## Theorems on the tokenizer -/

/-- C17: the invariant `start <= end <= str_len` holds after
`string_tokenizer_init` and after every number of calls to
`string_tokenizer_next`, whatever they return; every call is defined, that is
it reads `str` below `str_len` only, and the length `end - start` that
`token_equals` computes does not wrap around. -/
theorem tokenizer_invariant (str : List Int) (separator : Int) (n : Nat)
    (h64 : str.length < 2 ^ 64) :
    tokenizer_inv (string_tokenizer_init str str.length separator)
      ∧ ∃ t, string_tokenizer_after n (string_tokenizer_init str str.length separator) = some t
        ∧ tokenizer_inv t
        ∧ usub64 t.end_ t.start = t.end_ - t.start
        ∧ ∃ r, string_tokenizer_next t = some r ∧ tokenizer_inv r.2 := by
  have h0 : tokenizer_inv (string_tokenizer_init str str.length separator) :=
    ⟨Nat.le_refl 0, Nat.zero_le _⟩
  refine ⟨h0, ?_⟩
  obtain ⟨t, ht, hi, hs, hl, _⟩ :=
    after_inv n (string_tokenizer_init str str.length separator) rfl h64 h0
  have hl2 : t.str_len = str.length := hl
  have hs2 : t.str = str := hs
  obtain ⟨r, hr, hri, _⟩ := next_inv t (by rw [hl2, hs2]) (by rw [hl2]; exact h64) hi
  refine ⟨t, ht, hi, ?_, r, hr, hri⟩
  apply usub64_of_le
  · have := hi.2
    omega
  · exact hi.1

/-- C17, after two calls on `a/b` with the separator `/`: the token is `b`,
at `[2, 3)`. -/
theorem tokenizer_invariant_witness :
    (3 : Nat) < 2 ^ 64
      ∧ string_tokenizer_after 2 (string_tokenizer_init [97, 47, 98] 3 47)
        = some ⟨[97, 47, 98], 3, 47, 2, 3⟩
      ∧ tokenizer_inv (string_tokenizer_init [97, 47, 98] 3 47)
      ∧ ∃ t, string_tokenizer_after 2 (string_tokenizer_init [97, 47, 98] 3 47) = some t
        ∧ tokenizer_inv t
        ∧ usub64 t.end_ t.start = t.end_ - t.start
        ∧ ∃ r, string_tokenizer_next t = some r ∧ tokenizer_inv r.2 :=
  ⟨by decide, by decide, tokenizer_invariant [97, 47, 98] 47 2 (by decide)⟩

theorem token_length (t : string_tokenizer) (h1 : t.end_ ≤ t.str_len)
    (h2 : t.str_len ≤ t.str.length) : (token t).length = t.end_ - t.start := by
  unfold token
  rw [List.length_take, List.length_drop]
  omega

/-- The value of `token_equals` on two tokenizers that keep the invariant. -/
theorem token_equals_eq (t1 t2 : string_tokenizer) (hi1 : tokenizer_inv t1)
    (hi2 : tokenizer_inv t2) (hb1 : t1.str_len ≤ t1.str.length)
    (hb2 : t2.str_len ≤ t2.str.length) (h1 : t1.str_len < 2 ^ 64) (h2 : t2.str_len < 2 ^ 64) :
    token_equals t1 t2 = some (decide (token t1 = token t2)) := by
  have l1 := token_length t1 hi1.2 hb1
  have l2 := token_length t2 hi2.2 hb2
  have u1 : usub64 t1.end_ t1.start = t1.end_ - t1.start :=
    usub64_of_le _ _ (lt_of_le_of_lt hi1.2 h1) hi1.1
  have u2 : usub64 t2.end_ t2.start = t2.end_ - t2.start :=
    usub64_of_le _ _ (lt_of_le_of_lt hi2.2 h2) hi2.1
  unfold token_equals
  simp only [u1, u2]
  by_cases h : t1.end_ - t1.start = t2.end_ - t2.start
  · have hin : t1.end_ - t1.start ≤ (t1.str.drop t1.start).length
        ∧ t1.end_ - t1.start ≤ (t2.str.drop t2.start).length := by
      rw [List.length_drop, List.length_drop]
      have := hi1.2
      have := hi2.2
      omega
    rw [if_pos h]
    unfold memcmp_eq
    rw [if_pos hin]
    unfold token
    rw [← h]
  · rw [if_neg h]
    have hne : token t1 ≠ token t2 := by
      intro he
      apply h
      rw [← l1, ← l2, he]
    simp [hne]

/-- C13: on two tokenizers whose current tokens satisfy
`start <= end <= str_len`, `token_equals` returns true exactly when the two
tokens `str[start..end)` have the same length and the same bytes; so it is
reflexive and symmetric. -/
theorem token_equals_iff (t1 t2 : string_tokenizer) (hi1 : tokenizer_inv t1)
    (hi2 : tokenizer_inv t2) (hb1 : t1.str_len ≤ t1.str.length)
    (hb2 : t2.str_len ≤ t2.str.length) (h1 : t1.str_len < 2 ^ 64) (h2 : t2.str_len < 2 ^ 64) :
    (token_equals t1 t2 = some true
        ↔ (token t1).length = (token t2).length
          ∧ ∀ i, i < (token t1).length → (token t1)[i]? = (token t2)[i]?)
      ∧ (token_equals t1 t2 = some true ∨ token_equals t1 t2 = some false)
      ∧ (token t1).length = t1.end_ - t1.start
      ∧ (token t2).length = t2.end_ - t2.start
      ∧ token_equals t1 t1 = some true
      ∧ token_equals t1 t2 = token_equals t2 t1 := by
  have e12 := token_equals_eq t1 t2 hi1 hi2 hb1 hb2 h1 h2
  have e21 := token_equals_eq t2 t1 hi2 hi1 hb2 hb1 h2 h1
  have e11 := token_equals_eq t1 t1 hi1 hi1 hb1 hb1 h1 h1
  refine ⟨?_, ?_, token_length t1 hi1.2 hb1, token_length t2 hi2.2 hb2, ?_, ?_⟩
  · rw [e12]
    simp only [Option.some.injEq, decide_eq_true_eq]
    constructor
    · intro h
      rw [h]
      exact ⟨rfl, fun _ _ => rfl⟩
    · rintro ⟨hl, hb⟩
      apply List.ext_getElem? 
      intro i
      by_cases hi : i < (token t1).length
      · exact hb i hi
      · rw [List.getElem?_eq_none (by omega), List.getElem?_eq_none (by omega)]
  · rw [e12]
    by_cases h : token t1 = token t2
    · exact Or.inl (by simp [h])
    · exact Or.inr (by simp [h])
  · rw [e11]
    simp
  · rw [e12, e21]
    by_cases h : token t1 = token t2
    · simp [h]
    · have h3 : ¬ token t2 = token t1 := fun e => h e.symm
      simp [h, h3]

/-- C13, on the token `b` of `a/b` and the token `b` of `b/c` (equal), and on
the tokens `b` and `c` of `b/c` (not equal). -/
theorem token_equals_iff_witness :
    token_equals ⟨[97, 47, 98], 3, 47, 2, 3⟩ ⟨[98, 47, 99], 3, 47, 0, 1⟩ = some true
      ∧ token_equals ⟨[98, 47, 99], 3, 47, 0, 1⟩ ⟨[98, 47, 99], 3, 47, 2, 3⟩ = some false
      ∧ token_equals ⟨[97, 47, 98], 3, 47, 2, 3⟩ ⟨[97, 47, 98], 3, 47, 2, 3⟩ = some true :=
  ⟨(token_equals_iff ⟨[97, 47, 98], 3, 47, 2, 3⟩ ⟨[98, 47, 99], 3, 47, 0, 1⟩
      (by decide) (by decide) (by decide) (by decide) (by decide) (by decide)).1.mpr
      ⟨by decide, by decide⟩,
   by decide,
   (token_equals_iff ⟨[97, 47, 98], 3, 47, 2, 3⟩ ⟨[98, 47, 99], 3, 47, 0, 1⟩
      (by decide) (by decide) (by decide) (by decide) (by decide) (by decide)).2.2.2.2.1⟩

/-- C11: on the string `/a` with the separator `/`, every call to
`string_tokenizer_next` returns true and leaves `start = end = 0`: the first
call stops on the leading separator with `end` still 0, and `end != 0` is the
only mark of a later call. No call ever returns false. -/
theorem tokenizer_leading_separator_loops (n : Nat) :
    string_tokenizer_next (string_tokenizer_init [47, 97] 2 47)
        = some (true, string_tokenizer_init [47, 97] 2 47)
      ∧ string_tokenizer_after n (string_tokenizer_init [47, 97] 2 47)
        = some (string_tokenizer_init [47, 97] 2 47)
      ∧ string_tokenizer_nth (n + 1) (string_tokenizer_init [47, 97] 2 47) = some true := by
  have h1 : string_tokenizer_next (string_tokenizer_init [47, 97] 2 47)
      = some (true, string_tokenizer_init [47, 97] 2 47) := by decide
  have h2 : ∀ k, string_tokenizer_after k (string_tokenizer_init [47, 97] 2 47)
      = some (string_tokenizer_init [47, 97] 2 47) := by
    intro k
    induction k with
    | zero => rfl
    | succ k ih => simp [string_tokenizer_after, h1, ih]
  refine ⟨h1, h2 n, ?_⟩
  simp [string_tokenizer_nth, h2 n, h1]

/-- On the values the characters promote to: for a string whose first element
does not compare equal to the separator, the tokens that successive calls to
`string_tokenizer_next` report up to the first call that returns false (one of
the first `str_len + 1` calls) are, in order, the pieces of the string split at
every element that compares equal to the separator, a final empty piece
omitted; the empty string yields no token. -/
theorem tokens_eq_split_pieces (str : List Int) (separator : Int)
    (h64 : str.length < 2 ^ 64) (hhead : str.head? ≠ some separator) :
    string_tokenizer_tokens (str.length + 1) (string_tokenizer_init str str.length separator)
        = some (split_pieces separator str)
      ∧ split_pieces separator str = drop_final_empty (str.splitOn separator)
      ∧ (∀ tok ∈ split_pieces separator str, separator ∉ tok)
      ∧ string_tokenizer_tokens 1 (string_tokenizer_init [] 0 separator) = some [] := by
  refine ⟨?_, rfl, split_pieces_no_separator separator str.length str (le_refl _), by rfl⟩
  cases str with
  | nil => rfl
  | cons c l =>
    have hc : c ≠ separator := by
      intro h
      apply hhead
      rw [h]
      rfl
    have htw : List.takeWhile (fun c => !(c == separator)) (c :: l)
        = c :: List.takeWhile (fun c => !(c == separator)) l := by
      have hp : (!(c == separator)) = true := by simp [hc]
      rw [List.takeWhile_cons]
      simp only [hp, if_true]
    have hinit : tokenizer_inv (string_tokenizer_init (c :: l) (c :: l).length separator) :=
      ⟨Nat.le_refl 0, Nat.zero_le _⟩
    have hstop := scan_stop_le (string_tokenizer_init (c :: l) (c :: l).length separator) rfl 0
      (Nat.zero_le _)
    unfold string_tokenizer_tokens
    rw [next_eq _ rfl h64 hinit.2]
    simp only [string_tokenizer_init, List.length_cons, Nat.zero_add, List.drop_zero, ne_eq,
      not_true_eq_false, if_false] at hstop ⊢
    rw [if_neg (by omega)]
    simp only
    have key := tokens_from_end (l.length + 1)
      { str := c :: l, str_len := l.length + 1, separator := separator, start := 0,
        end_ := (List.takeWhile (fun c => !(c == separator)) (c :: l)).length }
      rfl h64 (by rw [htw]; simp) hstop (by rw [htw]; simp)
    rw [key]
    simp only [Option.map_some', token, List.drop_zero, Nat.sub_zero]
    rw [split_pieces_step separator (c :: l) (List.cons_ne_nil c l)]

/-- The tokens of `a//b/` with the separator `/` are `a`, the empty token and
`b`; the empty piece after the last separator is not reported. -/
theorem tokens_eq_split_pieces_witness :
    string_tokenizer_tokens 6 (string_tokenizer_init [97, 47, 47, 98, 47] 5 47)
        = some [[97], [], [98]]
      ∧ split_pieces 47 [97, 47, 47, 98, 47] = [[97], [], [98]]
      ∧ (∀ tok ∈ split_pieces 47 [97, 47, 47, 98, 47], (47 : Int) ∉ tok) :=
  ⟨(tokens_eq_split_pieces [97, 47, 47, 98, 47] 47 (by decide) (by decide)).1.trans
      (congrArg some (by decide)),
   by decide,
   (tokens_eq_split_pieces [97, 47, 47, 98, 47] 47 (by decide) (by decide)).2.2.1⟩

/-! ## The tokenizer on bytes -/

/-- A `char` compares equal to an `unsigned char` separator exactly when the
two bytes are equal, on a host whose `char` is unsigned or for a separator
below 128. -/
theorem char_of_byte_eq_iff (cs : Bool) (b sep : Nat) (hb : b < 256)
    (h : cs = false ∨ sep < 128) : char_of_byte cs b = (sep : Int) ↔ b = sep := by
  unfold char_of_byte
  rcases h with h | h
  · subst h
    simp
  · split_ifs with hc
    · constructor
      · intro he
        omega
      · intro he
        omega
    · exact Int.ofNat_inj

theorem map_modifyHead_cons (f : Nat → Int) (b : Nat) (X : List (List Nat)) :
    (X.modifyHead (List.cons b)).map (List.map f)
      = (X.map (List.map f)).modifyHead (List.cons (f b)) := by
  cases X <;> rfl

theorem splitOn_map_bytes (cs : Bool) (sep : Nat) (h : cs = false ∨ sep < 128) (l : List Nat)
    (hl : ∀ b ∈ l, b < 256) :
    (l.map (char_of_byte cs)).splitOn (sep : Int)
      = (l.splitOn sep).map (List.map (char_of_byte cs)) := by
  induction l with
  | nil => rfl
  | cons b l ih =>
    have hb256 : b < 256 := hl b (List.mem_cons_self b l)
    have ih2 := ih fun x hx => hl x (List.mem_cons_of_mem b hx)
    unfold List.splitOn at ih2 ⊢
    rw [List.map_cons, List.splitOnP_cons, List.splitOnP_cons, ih2]
    by_cases hb : b = sep
    · have h1 : char_of_byte cs b = (sep : Int) := (char_of_byte_eq_iff cs b sep hb256 h).mpr hb
      have h2 : (char_of_byte cs b == (sep : Int)) = true := by simp [h1]
      have h3 : (b == sep) = true := by simp [hb]
      rw [h2, h3]
      rfl
    · have h1 : ¬ char_of_byte cs b = (sep : Int) := fun e =>
        hb ((char_of_byte_eq_iff cs b sep hb256 h).mp e)
      have h2 : (char_of_byte cs b == (sep : Int)) = false := by simp [h1]
      have h3 : (b == sep) = false := by simp [hb]
      rw [h2, h3]
      simp only [Bool.false_eq_true, if_false]
      exact (map_modifyHead_cons _ _ _).symm

theorem getLast?_map_eq_nil (f : Nat → Int) (X : List (List Nat)) :
    (X.map (List.map f)).getLast? = some [] ↔ X.getLast? = some [] := by
  rw [List.getLast?_map]
  cases X.getLast? with
  | none => simp
  | some p => cases p <;> simp

theorem split_pieces_map_bytes (cs : Bool) (sep : Nat) (h : cs = false ∨ sep < 128)
    (l : List Nat) (hl : ∀ b ∈ l, b < 256) :
    split_pieces (sep : Int) (l.map (char_of_byte cs))
      = (split_bytes sep l).map (List.map (char_of_byte cs)) := by
  unfold split_pieces drop_final_empty split_bytes
  rw [splitOn_map_bytes cs sep h l hl]
  by_cases hg : (l.splitOn sep).getLast? = some []
  · rw [if_pos hg, if_pos ((getLast?_map_eq_nil _ _).mpr hg), List.map_dropLast]
  · rw [if_neg hg, if_neg (fun e => hg ((getLast?_map_eq_nil _ _).mp e))]

/-- On a host whose `char` is unsigned, or for a separator below 128: for a
string of bytes that does not begin with the separator, the tokens reported up
to the first call that returns false are the characters of the pieces of the
string split at every separator byte, a final empty piece omitted, and no piece
holds the separator byte. -/
theorem tokens_eq_split_bytes (cs : Bool) (bytes : List Nat) (sep : Nat)
    (hbytes : ∀ b ∈ bytes, b < 256) (hsep : sep < 256) (h : cs = false ∨ sep < 128)
    (h64 : bytes.length < 2 ^ 64) (hhead : bytes.head? ≠ some sep) :
    string_tokenizer_tokens (bytes.length + 1) (string_tokenizer_init_bytes cs bytes sep)
        = some ((split_bytes sep bytes).map (List.map (char_of_byte cs)))
      ∧ ∀ tok ∈ split_bytes sep bytes, sep ∉ tok := by
  have hlen : (bytes.map (char_of_byte cs)).length = bytes.length := List.length_map _ _
  have hh : (bytes.map (char_of_byte cs)).head? ≠ some (sep : Int) := by
    cases bytes with
    | nil => simp
    | cons b l =>
      simp only [List.map_cons, List.head?_cons, ne_eq, Option.some.injEq] at hhead ⊢
      exact fun e =>
        hhead ((char_of_byte_eq_iff cs b sep (hbytes b (List.mem_cons_self b l)) h).mp e)
  have key := tokens_eq_split_pieces (bytes.map (char_of_byte cs)) (sep : Int)
    (by rw [hlen]; exact h64) hh
  constructor
  · have k1 := key.1
    rw [hlen, split_pieces_map_bytes cs sep h bytes hbytes] at k1
    exact k1
  · intro tok htok hmem
    have k3 := key.2.2.1 (tok.map (char_of_byte cs))
      (by rw [split_pieces_map_bytes cs sep h bytes hbytes]; exact List.mem_map_of_mem _ htok)
    apply k3
    have := List.mem_map_of_mem (char_of_byte cs) hmem
    rwa [(char_of_byte_eq_iff cs sep sep hsep h).mpr rfl] at this

/-- C12: on a host whose `char` is signed, the string of the bytes `61 ff 62`
does not begin with the separator byte `ff`, and splitting it at that byte
gives the pieces `61` and `62`; yet the tokenizer reports one token that holds
the three bytes, the separator among them: the `char` of the byte `ff` promotes
to -1 and the `unsigned char` separator to 255, so the comparison in
`string_tokenizer_next` never holds. On a host whose `char` is unsigned the two
pieces are reported. -/
theorem tokenizer_signed_char_separator_missed :
    string_tokenizer_tokens 4 (string_tokenizer_init_bytes true [0x61, 0xff, 0x62] 0xff)
        = some [[0x61, 0xff, 0x62].map (char_of_byte true)]
      ∧ [0x61, 0xff, 0x62].map (char_of_byte true) = [0x61, -1, 0x62]
      ∧ split_bytes 0xff [0x61, 0xff, 0x62] = [[0x61], [0x62]]
      ∧ ([0x61, 0xff, 0x62] : List Nat).head? ≠ some 0xff
      ∧ string_tokenizer_tokens 4 (string_tokenizer_init_bytes false [0x61, 0xff, 0x62] 0xff)
        = some ((split_bytes 0xff [0x61, 0xff, 0x62]).map (List.map (char_of_byte false))) := by
  decide

end Fort
